import Mathlib

/-!
Verification of the folder-categorisation / playlist pipeline of the
`jellyfinplaylisteditor` repository (source files `playlist_manager.py` and
`playlist_generator.py`; the two files contain near-identical copies of the
functions treated here, and line references below are to
`playlist_manager.py` unless noted otherwise).

Shallow embedding conventions:
* a filesystem path is a list of components (`os.path.dirname` is `dropLast`,
  `os.path.basename` is the last component; components contain no slash);
* the SQLite store is an explicit record (`Db`); each Python function that
  opens a connection, mutates and commits is a Lean function from `Db` to
  `Db` paired with its return value.  Statements executed on an open
  connection are pending until `conn.commit()`; `conn.close()` without a
  commit rolls the implicit transaction back, and the model keeps the
  committed store and the pending table contents separate so this is
  visible;
* the external prober is an environment function giving, per file, the exit
  code of the spawned process and the captured standard output, the latter
  represented by its JSON parse (`none` for output that `json.loads`
  rejects);
* Python exceptions escaping a modelled function are `Except.error` values;
* interactive `input()` / terminal-menu answers are explicit parameters;
* Python string primitives (`str.lower`, `str.split`, `str.strip`,
  string comparison) are re-implemented over character lists so that they
  evaluate inside the kernel; `str.lower` is modelled for ASCII letters.
-/

namespace JPE

/-! ## Python string primitives -/

/-- `str.lower` on one character (ASCII range). -/
def pyLowerChar (c : Char) : Char :=
  if 'A' ≤ c ∧ c ≤ 'Z' then Char.ofNat (c.toNat + 32) else c

/-- `str.lower` (modelled for ASCII letters). -/
def pyLower (s : String) : String := String.mk (s.data.map pyLowerChar)

/-- Codepoint-lexicographic `≤` on character lists, Python's string order. -/
def strLeB : List Char → List Char → Bool
  | [], _ => true
  | _ :: _, [] => false
  | a :: as, b :: bs =>
    if a.toNat < b.toNat then true
    else if a.toNat = b.toNat then strLeB as bs
    else false

/-- Python's `<=` on strings. -/
def pyLe (a b : String) : Bool := strLeB a.data b.data

/-- Python's `<=` on strings, as a relation. -/
def pyLeRel (a b : String) : Prop := pyLe a b = true

instance : DecidableRel pyLeRel := fun a b => instDecidableEqBool (pyLe a b) true

/-- Python's `sorted` on a list of strings: the sorted permutation.  (Python
uses a stable mergesort; on strings every sorted permutation is the same
list, so insertion sort implements it exactly.) -/
def pySorted (l : List String) : List String := List.insertionSort pyLeRel l

/-- Python's `s.split(";")` — the code only ever splits on a semicolon.
No part is stripped of whitespace. -/
def splitSemiAux : List Char → List Char → List String
  | cur, [] => [String.mk cur.reverse]
  | cur, c :: cs =>
    if c = ';' then String.mk cur.reverse :: splitSemiAux [] cs
    else splitSemiAux (c :: cur) cs

/-- Python's `s.split(";")`. -/
def pySplitSemi (s : String) : List String := splitSemiAux [] s.data

/-- ASCII whitespace (the characters `int(...)` strips). -/
def pySpace (c : Char) : Bool := c = ' ' ∨ c = '\t' ∨ c = '\n' ∨ c = '\r'

/-- Python `int(str)` as used by `import_csv`: optional surrounding
whitespace, an optional sign, then at least one digit; anything else raises
`ValueError` (`none`).  (Digit-group underscores are not modelled.) -/
def pyInt (s : String) : Option Int :=
  let cs := (s.data.dropWhile pySpace).reverse.dropWhile pySpace |>.reverse
  match cs with
  | [] => none
  | c :: rest =>
    let digs := if c = '-' ∨ c = '+' then rest else cs
    if digs ≠ [] ∧ digs.all (·.isDigit) then
      let n : Nat := digs.foldl (fun acc d => acc * 10 + (d.toNat - '0'.toNat)) 0
      some (if c = '-' then -(n : Int) else (n : Int))
    else none

example : pyLower "A.MP3" = "a.mp3" := by decide
example : pyLe " Pop" "Rock" = true := by decide
example : pySorted ["Rock", " Pop"] = [" Pop", "Rock"] := by decide
example : pySplitSemi "Rock; Pop" = ["Rock", " Pop"] := by decide
example : pySplitSemi "Rock" = ["Rock"] := by decide
example : pySplitSemi "" = [""] := by decide
example : pyInt " 42 " = some 42 := by decide
example : pyInt "-7" = some (-7) := by decide
example : pyInt "x" = none := by decide
example : pyInt "" = none := by decide

/-! ## Paths and `os.path.splitext` -/

/-- A filesystem path, as the list of its components. -/
abbrev Path := List String

/-- The extension component of `os.path.splitext` applied to one path
component (the code applies `splitext` to a full entry path; the extension
only depends on the final component, `os.path.basename`): the suffix that
starts at the last dot, unless every character in front of that dot is
itself a dot (so hidden files such as `.mp3` have no extension). -/
def splitextExt (b : String) : String :=
  let cs := b.data
  match cs.reverse.findIdx? (· = '.') with
  | none => ""
  | some k =>
    let i := cs.length - 1 - k
    if (cs.take i).any (· ≠ '.') then String.mk (cs.drop i) else ""

/-- The recurring test `splitext(...)[1].lower() in allowed_extensions`. -/
def extMatch (allowed : List String) (name : String) : Bool :=
  allowed.contains (pyLower (splitextExt name))

/-- `PlaylistManager.allowed_extensions` (playlist_manager.py line 23). -/
def allowed_extensions : List String := [".mp3", ".ogg", ".flac", ".m4a", ".wma", ".ape"]

/-- `allowedextensions` (playlist_generator.py line 24); it also lists the
non-playable placeholder extension ".crap". -/
def allowedextensions : List String := [".mp3", ".crap", ".ogg", ".flac", ".m4a", ".wma", ".ape"]

/-! ## Filesystem model and the Scanner -/

/-- A directory entry as seen by `os.scandir`.  `dir` is a real directory
(`entry.is_dir(follow_symlinks=False)` is true); `symlinkDir` is a symbolic
link to a directory, carried with the listing of its target so that we can
state that the scanner never reads it; `file` is anything else (regular
file, symlink to a file, ...).  Children are listed in `scandir` order. -/
inductive FSEntry where
  | dir (name : String) (children : List FSEntry)
  | file (name : String)
  | symlinkDir (name : String) (target : List FSEntry)
deriving Repr

/-- The entry's `name` attribute. -/
def FSEntry.entryName : FSEntry → String
  | .dir n _ => n
  | .file n => n
  | .symlinkDir n _ => n

/-- `entry.is_dir(follow_symlinks=False)`. -/
def FSEntry.isRealDir : FSEntry → Bool
  | .dir _ _ => true
  | .file _ => false
  | .symlinkDir _ _ => false

/-- `scantree` (playlist_manager.py 458-464 / playlist_generator.py 414-420):
recursively yield every entry that is not a real directory, descending into
real directories only (`follow_symlinks=False`).  Here `p` is the path of
the directory whose listing is `es`, and the result is the list of the
yielded entries' paths in yield order. -/
def scantree : Path → List FSEntry → List Path
  | _, [] => []
  | p, .dir n cs :: rest => scantree (p ++ [n]) cs ++ scantree p rest
  | p, .file n :: rest => (p ++ [n]) :: scantree p rest
  | p, .symlinkDir n _ :: rest => (p ++ [n]) :: scantree p rest

/-- The accumulation loop of `getpaths`: for each yielded entry path whose
extension matches, append its dirname unless already collected. -/
def getpathsAux (allowed : List String) : List Path → List Path → List Path
  | paths, [] => paths
  | paths, q :: rest =>
    if extMatch allowed (q.getLastD "") then
      if q.dropLast ∈ paths then getpathsAux allowed paths rest
      else getpathsAux allowed (paths ++ [q.dropLast]) rest
    else getpathsAux allowed paths rest

/-- `getpaths` (playlist_manager.py 466-474 / playlist_generator.py 421-428):
all directory paths containing music files, in first-seen order without
duplicates. -/
def getpaths (allowed : List String) (p : Path) (es : List FSEntry) : List Path :=
  getpathsAux allowed [] (scantree p es)

/-- All real directories reachable from the listing `es` of directory `p`
without following symbolic links, each paired with its own listing
(excluding `(p, es)` itself). -/
def subdirs : Path → List FSEntry → List (Path × List FSEntry)
  | _, [] => []
  | p, .dir n cs :: rest => (p ++ [n], cs) :: (subdirs (p ++ [n]) cs ++ subdirs p rest)
  | p, .file _ :: rest => subdirs p rest
  | p, .symlinkDir _ _ :: rest => subdirs p rest

/-- All real directories reachable from `(p, es)`, including the root. -/
def dirsUnder (p : Path) (es : List FSEntry) : List (Path × List FSEntry) :=
  (p, es) :: subdirs p es

/-- Replace the target listing of every symbolically linked directory
(anywhere in the tree) by the empty listing. -/
def scrubLinks : List FSEntry → List FSEntry
  | [] => []
  | .dir n cs :: rest => .dir n (scrubLinks cs) :: scrubLinks rest
  | .file n :: rest => .file n :: scrubLinks rest
  | .symlinkDir n _ :: rest => .symlinkDir n [] :: scrubLinks rest

example : splitextExt "a.mp3" = ".mp3" := by decide
example : splitextExt ".mp3" = "" := by decide
example : splitextExt "a.b.c" = ".c" := by decide
example : splitextExt "noext" = "" := by decide
example : splitextExt "a." = "." := by decide
example : splitextExt "...." = "" := by decide
example : extMatch allowed_extensions "Track.MP3" = true := by decide

example :
    getpaths allowed_extensions ["root"]
      [.dir "A" [.file "x.mp3", .dir "B" [.file "y.flac"]],
       .dir "C" [.dir "D" [.file "z.ogg"]],
       .file "top.mp3",
       .symlinkDir "L" [.file "w.mp3"]]
    = [["root", "A"], ["root", "A", "B"], ["root", "C", "D"], ["root"]] := by
  simp +decide [getpaths, scantree, getpathsAux]

/-! ## The category / folder store -/

/-- One row of the `folders` table: `(id, path, category_id, user_name)`.
While the optional `user_name` column has not been added yet, every row's
`user_name` is `none` (per the spec, absence of the column is equivalent to
all rows carrying a null tag). -/
structure FolderRow where
  id : Nat
  path : String
  category_id : Option Nat
  user_name : Option String
deriving Repr, DecidableEq

/-- The category/folder part of the SQLite store.  `hasUserNameCol` records
whether `ALTER TABLE folders ADD COLUMN user_name` has been executed. -/
structure Db where
  categories : List (Nat × String)
  folders : List FolderRow
  hasUserNameCol : Bool
deriving Repr, DecidableEq

/-- `SELECT MAX(id) FROM categories`: `none` on an empty table. -/
def maxCategoryId : List (Nat × String) → Option Nat
  | [] => none
  | c :: cs =>
    match maxCategoryId cs with
    | none => some c.1
    | some m => some (max c.1 m)

/-- The observable outcome of `create_category`, one constructor per branch
of the source (83-122): the two pre-store input rejections, the successful
insert (returns `True`), and the `sqlite3.IntegrityError` handler for a
UNIQUE-constraint violation (distinct diagnostic, returns `False`). -/
inductive CreateResult where
  | enteredBack
  | emptyName
  | created (id : Nat)
  | duplicateName
deriving Repr, DecidableEq

/-- The id the source computes for a new category:
`0 if result[0] is None else result[0] + 1`. -/
def newCategoryId (db : Db) : Nat :=
  match maxCategoryId db.categories with
  | none => 0
  | some m => m + 1

/-- `create_category` (playlist_manager.py 83-122 / playlist_generator.py
88-123), with the interactive `input()` passed in as `category_name`.
Returns the committed store and the branch taken.  The `INSERT` raises
`IntegrityError` when either UNIQUE constraint (name) or the id primary key
is violated. -/
def create_category (db : Db) (category_name : String) : Db × CreateResult :=
  if pyLower category_name = "back" then (db, .enteredBack)
  else if category_name = "" then (db, .emptyName)
  else if db.categories.any (fun c => c.1 = newCategoryId db ∨ c.2 = category_name) then
    (db, .duplicateName)
  else
    ({ db with categories := db.categories ++ [(newCategoryId db, category_name)] },
      .created (newCategoryId db))

/-- The committed effect of `delete_category` (174-188) once a category has
been selected from the menu and (if folders reference it) confirmed:
`DELETE FROM categories WHERE id = ?`, then
`UPDATE folders SET category_id = NULL WHERE category_id = ?`, commit. -/
def delete_category (db : Db) (selected_category_id : Nat) : Db :=
  { db with
    categories := db.categories.filter (fun c => c.1 ≠ selected_category_id),
    folders := db.folders.map (fun f =>
      if f.category_id = some selected_category_id then
        { f with category_id := none }
      else f) }

/-- The inner join of `get_folders_with_categories` (532-566):
`SELECT f.path, f.category_id, c.name [, f.user_name] FROM folders f JOIN
categories c ON f.category_id = c.id`, one tuple per joined row in folder
order.  When the `user_name` column is absent the Python dict stores `None`
for it. -/
def get_folders_with_categories (db : Db) : List (String × Nat × String × Option String) :=
  db.folders.flatMap (fun f =>
    (db.categories.filter (fun c => f.category_id = some c.1)).map (fun c =>
      (f.path, c.1, c.2, if db.hasUserNameCol then f.user_name else none)))

/-- Largest rowid in the `folders` table (0 when empty). -/
def maxFolderId : List FolderRow → Nat
  | [] => 0
  | f :: fs => max f.id (maxFolderId fs)

/-- `INSERT OR REPLACE INTO folders (path, ...)`: the UNIQUE(path) conflict
deletes any old row with this path; the new row receives a fresh rowid and
sits at the end of the table. -/
def upsertFolder (folders : List FolderRow) (path : String) (cid : Option Nat)
    (user : Option String) : List FolderRow :=
  folders.filter (fun f => f.path ≠ path) ++ [⟨maxFolderId folders + 1, path, cid, user⟩]

/-- `store_folder_category` (502-530).  When the `user_name` column exists
the three-column insert writes exactly the caller-supplied `user_name`
(Python default `None`); otherwise the two-column insert leaves the tag
null.  Commits and returns `True`. -/
def store_folder_category (db : Db) (folder_path : String) (category_id : Nat)
    (user_name : Option String) : Db × Bool :=
  if db.hasUserNameCol then
    ({ db with folders := upsertFolder db.folders folder_path (some category_id) user_name }, true)
  else
    ({ db with folders := upsertFolder db.folders folder_path (some category_id) none }, true)

/-- The store step of `reassign_albums` (394-416): when the `user_name`
column exists, the prior `user_name` of the row with this path is read back
(`SELECT user_name FROM folders WHERE path = ?`, `None` when no row) and
re-written together with the newly selected category. -/
def reassign_store (db : Db) (selected_folder : String) (selected_category_id : Nat) : Db :=
  if db.hasUserNameCol then
    let user_name := match db.folders.find? (fun f => f.path = selected_folder) with
      | some f => f.user_name
      | none => none
    { db with folders := upsertFolder db.folders selected_folder (some selected_category_id) user_name }
  else
    { db with folders := upsertFolder db.folders selected_folder (some selected_category_id) none }

/-! ## CSV import -/

/-- Result of `import_csv`: the committed store after the call, the boolean
return value, and the number of rows counted as imported. -/
structure ImportResult where
  db : Db
  ok : Bool
  imported : Nat
deriving Repr, DecidableEq

/-- The row loop of `import_csv` (238-277).  `dbC` is the committed store
when the loop starts (the lazy `ALTER TABLE` above the loop commits
separately); `colsHasUser` is the stale `columns` list read by `PRAGMA`
BEFORE the `ALTER`, which the loop body consults; `pending` are the table
contents on the open connection.  A row with fewer than two columns is
reported and skipped; `int(row[1])` raising `ValueError` is caught by the
broad `except` clause, which returns `False` — the `conn.commit()` after the
loop is never reached and `conn.close()` in `finally` rolls the pending
inserts back; a parseable id absent from `categories` is reported and
skipped; otherwise the row is upserted. -/
def importLoop (dbC : Db) (colsHasUser : Bool) (username : Option String) :
    List FolderRow → Nat → List (List String) → ImportResult
  | pending, count, [] => ⟨{ dbC with folders := pending }, true, count⟩
  | pending, count, row :: rest =>
    if 2 ≤ row.length then
      match pyInt (row.getD 1 "") with
      | none => ⟨dbC, false, count⟩
      | some cid =>
        if dbC.categories.any (fun c => (c.1 : Int) = cid) then
          let user := if colsHasUser ∧ username.isSome then username else none
          importLoop dbC colsHasUser username
            (upsertFolder pending (row.getD 0 "") (some cid.toNat) user) (count + 1) rest
        else
          importLoop dbC colsHasUser username pending count rest
    else
      importLoop dbC colsHasUser username pending count rest

/-- `import_csv` (195-277), from the point where the file exists and has
been read into `rows` (each row a list of column strings).  `username` is
the interactive answer (`None` when skipped).  A `user_name` column is added
(and committed) before the loop if a username was given and the column was
missing, but the loop keeps consulting the stale pre-`ALTER` column list. -/
def import_csv (db : Db) (username : Option String) (rows : List (List String)) : ImportResult :=
  let colsHasUser := db.hasUserNameCol
  let dbC := if ¬db.hasUserNameCol ∧ username.isSome then { db with hasUserNameCol := true } else db
  importLoop dbC colsHasUser username dbC.folders 0 rows

/-! ## Pruning invalid paths -/

/-- The four entries of the prune menu, `["Yes", "No", "Skip", "Cancel"]`;
a dismissed menu (`menu_index is None`) takes the Cancel branch. -/
inductive PruneChoice where
  | yes
  | no
  | skipEntry
  | cancel
deriving Repr, DecidableEq

/-- Result of `prune_invalid_paths`: committed store, boolean return value,
and how many prompts were shown. -/
structure PruneResult where
  db : Db
  ok : Bool
  prompts : Nat
deriving Repr, DecidableEq

/-- The folder loop of `prune_invalid_paths` (744-794).  `dbC` is the
committed store, `pending` the table contents on the open connection,
`pathExists` models `os.path.exists`, and `choices k` is the user's answer
to the `k`-th prompt.  `Yes` executes `DELETE FROM folders WHERE id = ?` on
the open connection; `No` and `Skip` do nothing; `Cancel` closes the
connection WITHOUT committing, so the committed store is still `dbC`.  Only
when the loop finishes does `conn.commit()` make the deletions durable. -/
def pruneLoop (dbC : Db) (pathExists : String → Bool) (choices : Nat → PruneChoice) :
    List FolderRow → Nat → List FolderRow → PruneResult
  | pending, k, [] => ⟨{ dbC with folders := pending }, true, k⟩
  | pending, k, f :: rest =>
    if pathExists f.path then pruneLoop dbC pathExists choices pending k rest
    else
      match choices k with
      | .yes => pruneLoop dbC pathExists choices (pending.filter (fun g => g.id ≠ f.id)) (k + 1) rest
      | .no => pruneLoop dbC pathExists choices pending (k + 1) rest
      | .skipEntry => pruneLoop dbC pathExists choices pending (k + 1) rest
      | .cancel => ⟨dbC, false, k + 1⟩

/-- `prune_invalid_paths` (744-794): iterates the snapshot
`SELECT id, path, category_id FROM folders` of the committed store.
(The early `return False` when the table is empty coincides with running the
loop on an empty snapshot except for the boolean result, which no claim
depends on; the loop model is used uniformly.) -/
def prune_invalid_paths (db : Db) (pathExists : String → Bool)
    (choices : Nat → PruneChoice) : PruneResult :=
  pruneLoop db pathExists choices db.folders 0 db.folders

example :
    prune_invalid_paths ⟨[], [⟨1, "/a", none, none⟩, ⟨2, "/b", none, none⟩], false⟩
      (fun _ => false) (fun k => if k = 0 then .yes else .cancel)
    = ⟨⟨[], [⟨1, "/a", none, none⟩, ⟨2, "/b", none, none⟩], false⟩, false, 2⟩ := by decide

/-! ## The Metadata Prober and the Playlist Builder -/

/-- A decoded JSON value (the image of `json.loads`).  `json.loads` keeps
the last binding of a duplicated object key. -/
inductive Json where
  | null
  | bool (b : Bool)
  | num (n : Int)
  | str (s : String)
  | arr (xs : List Json)
  | obj (fields : List (String × Json))
deriving Repr

/-- Python exceptions that the modelled code can raise. -/
inductive PyErr where
  | keyError (k : String)
  | typeError
  | attributeError
  | jsonDecodeError
deriving Repr, DecidableEq

/-- Outcome of `subprocess.run([ffprobe, ...])`: the exit code, and the
captured standard output represented by its JSON parse (`none` for output
that `json.loads` rejects). -/
structure ProcResult where
  returncode : Int
  stdout : Option Json

/-- `ffprobe` (444-456): on exit code 0 return the captured output
unchanged; on non-zero exit return the two-character empty-object string,
whose JSON parse is `Json.obj []`.  The function itself never raises. -/
def ffprobe (result : ProcResult) : Option Json :=
  if result.returncode = 0 then result.stdout else some (Json.obj [])

/-- `json.loads` applied to a captured output: parse failure raises. -/
def json_loads : Option Json → Except PyErr Json
  | some j => .ok j
  | none => .error .jsonDecodeError

/-- Python dict lookup on a decoded JSON object (last binding wins). -/
def pyLookup (fields : List (String × Json)) (k : String) : Option Json :=
  ((fields.filter (fun kv => kv.1 = k)).getLast?).map (fun kv => kv.2)

/-- Python `d[k]` on a decoded JSON value: `KeyError` when the key is
missing, `TypeError` when the value is not an object. -/
def Json.getItem (j : Json) (k : String) : Except PyErr Json :=
  match j with
  | .obj fs =>
    match pyLookup fs k with
    | some v => .ok v
    | none => .error (.keyError k)
  | _ => .error .typeError

/-- The value bound to `genre` once a tag key was found: a JSON string is
kept, a JSON null is Python `None` (skipped by the `is not None` guard),
and any other value would raise `AttributeError` at `genre.split(";")`. -/
def genreValue : Json → Except PyErr (Option String)
  | .null => .ok none
  | .str s => .ok (some s)
  | _ => .error .attributeError

/-- The per-file genre extraction inside `write_playlists` (686-694):
`json.loads(...)['format']['tags']` is evaluated UNGUARDED — only the
`tags['GENRE']` / `tags['genre']` lookups sit inside `try/except KeyError`,
a missing key falling through to `genre = None`. -/
def extract_genre (probeOut : Option Json) : Except PyErr (Option String) := do
  let j ← json_loads probeOut
  let fmt ← j.getItem "format"
  let tags ← fmt.getItem "tags"
  match tags with
  | .obj fs =>
    match pyLookup fs "GENRE" with
    | some v => genreValue v
    | none =>
      match pyLookup fs "genre" with
      | some v => genreValue v
      | none => .ok none
  | _ => .error .typeError

/-- `list.extend(g for g in genres if g not in acc)` where the generator
tests membership against the list being extended: duplicates inside one
batch are also suppressed, and first-seen order is preserved. -/
def extendDedup (acc : List String) : List String → List String
  | [] => acc
  | g :: gs => if g ∈ acc then extendDedup acc gs else extendDedup (acc ++ [g]) gs

/-- The per-category draft `newplaylist[name]`. -/
structure PlaylistData where
  genres : List String
  files : List Path
deriving Repr, DecidableEq

/-- The in-memory dict `newplaylist`, keys in insertion order. -/
abbrev Playlists := List (String × PlaylistData)

/-- Dict read with the empty draft as default (the code initialises the
entry before reading it). -/
def getPlaylist (pls : Playlists) (k : String) : PlaylistData :=
  match pls.find? (fun kv => kv.1 = k) with
  | some kv => kv.2
  | none => ⟨[], []⟩

/-- Python dict write: replace in place when the key exists, else append. -/
def setPlaylist (pls : Playlists) (k : String) (v : PlaylistData) : Playlists :=
  if pls.any (fun kv => kv.1 = k) then
    pls.map (fun kv => if kv.1 = k then (k, v) else kv)
  else pls ++ [(k, v)]

/-- One folder of the `folders_with_categories` loop of `write_playlists`:
the folder's path, its category's name, and its `os.scandir` listing. -/
structure FolderJob where
  path : Path
  category_name : String
  entries : List FSEntry

/-- `newfiles` (673): the names of ALL entries of the folder whose
extension matches — there is no `is_file` check here (unlike the listings
in `assign_albums` / `reassign_albums`), so subdirectories and symlinks
with a matching name are included. -/
def newfiles (allowed : List String) (job : FolderJob) : List String :=
  (job.entries.filter (fun e => extMatch allowed e.entryName)).map FSEntry.entryName

/-- One iteration of `for file in sorted(newfiles)` (684-697): append the
joined path to the category's file list, then probe the file and merge its
(semicolon-split, untrimmed) genre parts; a Python exception raised while
reading the probe result escapes the loop. -/
def process_file (probe : Path → ProcResult) (folder_path : Path) (pd : PlaylistData)
    (file : String) : Except PyErr PlaylistData :=
  let pd1 : PlaylistData := { pd with files := pd.files ++ [folder_path ++ [file]] }
  match extract_genre (ffprobe (probe (folder_path ++ [file]))) with
  | .error e => .error e
  | .ok none => .ok pd1
  | .ok (some s) => .ok { pd1 with genres := extendDedup pd1.genres (pySplitSemi s) }

/-- The file loop `for file in sorted(newfiles)` over one folder. -/
def process_files (probe : Path → ProcResult) (folder_path : Path) :
    PlaylistData → List String → Except PyErr PlaylistData
  | pd, [] => .ok pd
  | pd, x :: xs =>
    match process_file probe folder_path pd x with
    | .error e => .error e
    | .ok pd1 => process_files probe folder_path pd1 xs

/-- The three `if ... not in newplaylist` initialisations (677-682): make
sure the category's draft entry exists. -/
def initPlaylist (pls : Playlists) (c : String) : Playlists :=
  if pls.any (fun kv => kv.1 = c) then pls else pls ++ [(c, (⟨[], []⟩ : PlaylistData))]

/-- The body of the folder loop of `write_playlists` (669-697): initialise
the category's draft if missing, then process the folder's matching entries
in sorted name order. -/
def process_folder (allowed : List String) (probe : Path → ProcResult)
    (pls : Playlists) (job : FolderJob) : Except PyErr Playlists :=
  match process_files probe job.path
      (getPlaylist (initPlaylist pls job.category_name) job.category_name)
      (pySorted (newfiles allowed job)) with
  | .error e => .error e
  | .ok pd => .ok (setPlaylist (initPlaylist pls job.category_name) job.category_name pd)

/-- The folder loop of `write_playlists` over all categorised folders. -/
def process_folders (allowed : List String) (probe : Path → ProcResult) :
    Playlists → List FolderJob → Except PyErr Playlists
  | pls, [] => .ok pls
  | pls, job :: rest =>
    match process_folder allowed probe pls job with
    | .error e => .error e
    | .ok pls1 => process_folders allowed probe pls1 rest

/-- One emitted playlist document (the `Item` element of 720-737), children
in fixed order; `playlistItems` is the list of `PlaylistItem/Path` texts. -/
structure PlaylistXml where
  added : String
  lockData : String
  localTitle : String
  genres : List String
  ownerUserId : String
  playlistItems : List Path
  playlistMediaType : String
deriving Repr, DecidableEq

/-- The emission loop body (711-738) for one dict entry: genres are emitted
sorted; files in accumulated order. -/
def playlist_xml (now : String) (name : String) (pd : PlaylistData) : PlaylistXml :=
  ⟨now, "false", name, pySorted pd.genres,
   "f9dc2435d1eb43fcb7be02c060e59a52", pd.files, "Audio"⟩

/-- `write_playlists` (660-742): fold the folder loop over the categorised
folders (`jobs` pairs each row of `get_folders_with_categories` with the
folder's listing), then emit one document per dict key.  Any Python
exception escaping the loop aborts the whole run. -/
def write_playlists (allowed : List String) (probe : Path → ProcResult) (now : String)
    (jobs : List FolderJob) : Except PyErr (List PlaylistXml) :=
  match process_folders allowed probe [] jobs with
  | .error e => .error e
  | .ok pls => .ok (pls.map (fun kv => playlist_xml now kv.1 kv.2))

/-! ## Order properties of the modelled string comparison -/

theorem strLeB_total : ∀ as bs : List Char, strLeB as bs = true ∨ strLeB bs as = true := by
  intro as
  induction as with
  | nil => intro bs; left; rfl
  | cons a as ih =>
    intro bs
    cases bs with
    | nil => right; rfl
    | cons b bs =>
      by_cases hab : a.toNat < b.toNat
      · left; simp [strLeB, hab]
      · by_cases heq : a.toNat = b.toNat
        · rcases ih bs with h | h
          · left; simp [strLeB, heq, h]
          · right; simp [strLeB, heq.symm, h]
        · right
          have hba : b.toNat < a.toNat := by omega
          simp [strLeB, hba]

theorem strLeB_trans : ∀ as bs cs : List Char,
    strLeB as bs = true → strLeB bs cs = true → strLeB as cs = true := by
  intro as
  induction as with
  | nil => intro bs cs _ _; rfl
  | cons a as ih =>
    intro bs cs h1 h2
    cases bs with
    | nil => simp [strLeB] at h1
    | cons b bs =>
      cases cs with
      | nil => simp [strLeB] at h2
      | cons c cs =>
        simp only [strLeB] at h1 h2 ⊢
        by_cases hab : a.toNat < b.toNat
        · by_cases hbc : b.toNat < c.toNat
          · have : a.toNat < c.toNat := by omega
            simp [this]
          · by_cases hbc2 : b.toNat = c.toNat
            · have : a.toNat < c.toNat := by omega
              simp [this]
            · simp [hbc, hbc2] at h2
        · by_cases hab2 : a.toNat = b.toNat
          · by_cases hbc : b.toNat < c.toNat
            · have : a.toNat < c.toNat := by omega
              simp [this]
            · by_cases hbc2 : b.toNat = c.toNat
              · have hac : a.toNat = c.toNat := by omega
                have hlt : ¬ a.toNat < a.toNat := lt_irrefl _
                rw [hab2] at h1 hlt
                rw [hbc2] at h2
                simp only [if_neg hlt, if_pos rfl] at h1
                have hlt2 : ¬ c.toNat < c.toNat := lt_irrefl _
                simp only [if_neg hlt2, if_pos rfl] at h2
                have hac2 : ¬ a.toNat < c.toNat := by omega
                simp [hac2, hac, ih bs cs h1 h2]
              · simp [hbc, hbc2] at h2
          · simp [hab, hab2] at h1

instance : IsTotal String pyLeRel :=
  ⟨fun a b => strLeB_total a.data b.data⟩

instance : IsTrans String pyLeRel :=
  ⟨fun _ _ _ h1 h2 => strLeB_trans _ _ _ h1 h2⟩

theorem mem_pySorted {a : String} {l : List String} : a ∈ pySorted l ↔ a ∈ l :=
  List.mem_insertionSort pyLeRel

theorem pySorted_perm (l : List String) : (pySorted l).Perm l :=
  List.perm_insertionSort pyLeRel l

theorem pySorted_sorted (l : List String) : (pySorted l).Pairwise pyLeRel :=
  List.sorted_insertionSort pyLeRel l

theorem pySorted_nodup {l : List String} (h : l.Nodup) : (pySorted l).Nodup :=
  ((pySorted_perm l).nodup_iff).mpr h

/-! ## Claims C10 and C7: `create_category` -/

theorem mem_le_maxCategoryId :
    ∀ (cats : List (Nat × String)) (c : Nat × String), c ∈ cats →
      ∃ m, maxCategoryId cats = some m ∧ c.1 ≤ m := by
  intro cats
  induction cats with
  | nil => intro c hc; simp at hc
  | cons a as ih =>
    intro c hc
    rcases List.mem_cons.mp hc with h | h
    · subst h
      cases hmax : maxCategoryId as with
      | none => exact ⟨c.1, by simp [maxCategoryId, hmax], le_refl _⟩
      | some m => exact ⟨max c.1 m, by simp [maxCategoryId, hmax], le_max_left _ _⟩
    · obtain ⟨m, hm, hle⟩ := ih c h
      exact ⟨max a.1 m, by simp [maxCategoryId, hm], le_trans hle (le_max_right _ _)⟩

theorem newCategoryId_fresh (db : Db) (c : Nat × String) (hc : c ∈ db.categories) :
    c.1 ≠ newCategoryId db := by
  obtain ⟨m, hm, hle⟩ := mem_le_maxCategoryId db.categories c hc
  simp only [newCategoryId, hm]
  omega

/-- C10: `create_category` returns a failure without touching the store when
the entered name is empty or is any letter-case variant of "back" (the
`.lower()` check precedes every database statement); consequently no call
can ever add a category whose name lowercases to "back": any such category
in the post-state was already in the pre-state, and the rejected calls leave
the store unchanged. -/
theorem C10_create_category_back_guard (db : Db) (name : String) :
    (pyLower name = "back" → create_category db name = (db, .enteredBack)) ∧
    (name = "" → create_category db name = (db, .emptyName)) ∧
    (∀ c ∈ (create_category db name).1.categories,
      pyLower c.2 = "back" → c ∈ db.categories) := by
  refine ⟨?_, ?_, ?_⟩
  · intro h; simp [create_category, h]
  · intro h; subst h; simp [create_category]; decide
  · intro c hc hlow
    by_cases hb : pyLower name = "back"
    · simpa [create_category, hb] using hc
    · by_cases he : name = ""
      · simpa [create_category, hb, he] using hc
      · simp only [create_category, if_neg hb, if_neg he] at hc
        split at hc
        · simpa using hc
        · rcases (by simpa using hc : c ∈ db.categories ∨ c = (newCategoryId db, name)) with h | h
          · exact h
          · exfalso
            rw [h] at hlow
            exact hb hlow

/-- Witness for C10 at a concrete input: creating "BACK" on an empty store
is rejected in the `back` branch with the store unchanged. -/
theorem C10_witness :
    pyLower "BACK" = "back" ∧
    create_category ⟨[], [], false⟩ "BACK" = (⟨[], [], false⟩, .enteredBack) :=
  ⟨by decide, (C10_create_category_back_guard ⟨[], [], false⟩ "BACK").1 (by decide)⟩

/-- C7: with an acceptable name, `create_category` inserts the new category
with id `max(existing ids) + 1` (0 on an empty store) and reports success;
when the name already exists, the UNIQUE constraint fires, the distinct
duplicate-name branch is taken, and the committed categories (in particular
their count) are unchanged. -/
theorem C7_create_category_id_and_duplicate (db : Db) (name : String)
    (hb : pyLower name ≠ "back") (he : name ≠ "") :
    ((∀ c ∈ db.categories, c.2 ≠ name) →
      create_category db name =
        ({ db with categories := db.categories ++ [(newCategoryId db, name)] },
          .created (newCategoryId db)) ∧
      (db.categories = [] → newCategoryId db = 0) ∧
      (∀ m, maxCategoryId db.categories = some m → newCategoryId db = m + 1)) ∧
    ((∃ c ∈ db.categories, c.2 = name) →
      create_category db name = (db, .duplicateName) ∧
      (create_category db name).1.categories.length = db.categories.length) := by
  constructor
  · intro hnodup
    have hany : db.categories.any (fun cc => cc.1 = newCategoryId db ∨ cc.2 = name) = false := by
      rw [List.any_eq_false]
      intro c hc
      have h1 := newCategoryId_fresh db c hc
      have h2 := hnodup c hc
      simp [h1, h2]
    refine ⟨?_, ?_, ?_⟩
    · simp only [create_category, if_neg hb, if_neg he, hany]
      rfl
    · intro h0; simp [newCategoryId, h0, maxCategoryId]
    · intro m hm; simp [newCategoryId, hm]
  · rintro ⟨c, hc, hname⟩
    have hany : db.categories.any (fun cc => cc.1 = newCategoryId db ∨ cc.2 = name) = true := by
      rw [List.any_eq_true]
      exact ⟨c, hc, by simp [hname]⟩
    have heq : create_category db name = (db, .duplicateName) := by
      simp only [create_category, if_neg hb, if_neg he, hany]
      rfl
    exact ⟨heq, by rw [heq]⟩

/-- Witness for C7 at the spec's concrete scenario: creating "Rock" on an
empty store succeeds with id 0; creating "Rock" again fails in the
duplicate branch with the category count unchanged. -/
theorem C7_witness :
    create_category ⟨[], [], false⟩ "Rock" = (⟨[(0, "Rock")], [], false⟩, .created 0) ∧
    create_category ⟨[(0, "Rock")], [], false⟩ "Rock" = (⟨[(0, "Rock")], [], false⟩, .duplicateName) := by
  constructor
  · exact ((C7_create_category_id_and_duplicate ⟨[], [], false⟩ "Rock"
      (by decide) (by decide)).1 (by intro c hc; simp at hc)).1
  · exact ((C7_create_category_id_and_duplicate ⟨[(0, "Rock")], [], false⟩ "Rock"
      (by decide) (by decide)).2 ⟨(0, "Rock"), by simp, rfl⟩).1

/-! ## Claim C8: `delete_category` and the inner join -/

/-- C8: after `delete_category` removes category `cid`, every folder row
that referenced it is still present in the folders table with its category
reference nulled, and (paths being UNIQUE) no row of the
`get_folders_with_categories` inner join carries its path. -/
theorem C8_delete_category_nulls_and_hides (db : Db) (cid : Nat) (f : FolderRow)
    (hf : f ∈ db.folders) (hcat : f.category_id = some cid)
    (hpaths : (db.folders.map FolderRow.path).Nodup) :
    ({ f with category_id := none } ∈ (delete_category db cid).folders) ∧
    (∀ r ∈ get_folders_with_categories (delete_category db cid), r.1 ≠ f.path) := by
  constructor
  · have := List.mem_map_of_mem (fun g =>
      if g.category_id = some cid then { g with category_id := none } else g) hf
    simpa [delete_category, hcat] using this
  · intro r hr
    simp only [get_folders_with_categories, List.mem_flatMap] at hr
    obtain ⟨g, hg, hr2⟩ := hr
    simp only [List.mem_map, List.mem_filter] at hr2
    obtain ⟨c, ⟨hcmem, hgc⟩, hrval⟩ := hr2
    simp only [delete_category, List.mem_map] at hg
    obtain ⟨g0, hg0, hgg⟩ := hg
    intro hpath
    have hgpath : g.path = g0.path := by
      rw [← hgg]; split <;> rfl
    have hr1 : r.1 = g.path := by rw [← hrval]
    have hg0f : g0 = f := by
      refine List.inj_on_of_nodup_map hpaths hg0 hf ?_
      rw [← hgpath, ← hr1, hpath]
    rw [hg0f] at hgg
    rw [← hgg] at hgc
    simp [hcat] at hgc

/-- Witness for C8 at a concrete store: one category, one folder referencing
it; after deletion the row is nulled and the join result no longer lists
its path. -/
theorem C8_witness :
    ((⟨7, "/m/a", none, none⟩ : FolderRow)
        ∈ (delete_category ⟨[(0, "Rock")], [⟨7, "/m/a", some 0, none⟩], false⟩ 0).folders) ∧
    (∀ r ∈ get_folders_with_categories
        (delete_category ⟨[(0, "Rock")], [⟨7, "/m/a", some 0, none⟩], false⟩ 0),
      r.1 ≠ "/m/a") :=
  C8_delete_category_nulls_and_hides
    ⟨[(0, "Rock")], [⟨7, "/m/a", some 0, none⟩], false⟩ 0 ⟨7, "/m/a", some 0, none⟩
    (by decide) (by decide) (by decide)

/-! ## Claim C5: the folder upsert and the `user_name` column -/

theorem find?_filter_append_self (path0 : String) (r : FolderRow) (hr : r.path = path0) :
    ∀ l : List FolderRow,
      ((l.filter (fun f => f.path ≠ path0)) ++ [r]).find? (fun f => f.path = path0) = some r := by
  intro l
  induction l with
  | nil => simp [List.find?, hr]
  | cons f fs ih =>
    by_cases h : f.path = path0
    · simpa [List.filter, h] using ih
    · simp only [List.filter_cons]
      rw [if_pos (by simpa using h)]
      simpa [List.find?, h] using ih

/-- The row the upsert leaves under `path0`. -/
theorem find?_upsertFolder (folders : List FolderRow) (path0 : String)
    (cid : Option Nat) (user : Option String) :
    (upsertFolder folders path0 cid user).find? (fun f => f.path = path0)
      = some ⟨maxFolderId folders + 1, path0, cid, user⟩ :=
  find?_filter_append_self path0 _ rfl folders

/-- Counterexample to C5 as stated: a stored row `("p", category 0,
user_name "alice")`; calling `store_folder_category` for "p" with category 1
and no `user_name` argument (Python default `None`) REPLACES the row with a
null `user_name` instead of preserving "alice". -/
theorem C5_counterexample :
    (((store_folder_category ⟨[(0, "A"), (1, "B")], [⟨1, "p", some 0, some "alice"⟩], true⟩
          "p" 1 none).1.folders.find? (fun f => f.path = "p")).map FolderRow.user_name
      = some none) ∧
    ((([⟨1, "p", some 0, some "alice"⟩] : List FolderRow).find?
          (fun f => f.path = "p")).map FolderRow.user_name
      = some (some "alice")) ∧
    (some (none : Option String) ≠ some (some "alice")) := by
  refine ⟨by decide, by decide, by decide⟩

/-- C5 amended: the upsert is an insert-or-replace keyed by path, but
`store_folder_category` writes exactly the caller-supplied `user_name`
(null when not supplied) even when the column exists, clobbering any stored
value; only the `reassign_albums` write preserves the prior `user_name`, by
reading it back and re-supplying it explicitly. -/
theorem C5_upsert_user_name (db : Db) (path0 : String) (cid : Nat) (u : Option String)
    (hcol : db.hasUserNameCol = true) :
    ((((store_folder_category db path0 cid u).1.folders.find?
        (fun f => f.path = path0)).map FolderRow.user_name) = some u) ∧
    (∀ f0, db.folders.find? (fun f => f.path = path0) = some f0 →
      (((reassign_store db path0 cid).folders.find?
          (fun f => f.path = path0)).map FolderRow.user_name) = some f0.user_name) := by
  constructor
  · simp only [store_folder_category, hcol, if_pos]
    rw [find?_upsertFolder]
    rfl
  · intro f0 hf0
    simp only [reassign_store, hcol, if_pos, hf0]
    rw [find?_upsertFolder]
    rfl

/-- Witness for C5 amended at a concrete store: the reassign write keeps
"alice" while the plain store write nulls the tag. -/
theorem C5_witness :
    ((((store_folder_category ⟨[(0, "A"), (1, "B")], [⟨1, "p", some 0, some "alice"⟩], true⟩
          "p" 1 none).1.folders.find? (fun f => f.path = "p")).map FolderRow.user_name)
        = some none) ∧
    ((((reassign_store ⟨[(0, "A"), (1, "B")], [⟨1, "p", some 0, some "alice"⟩], true⟩
          "p" 1).folders.find? (fun f => f.path = "p")).map FolderRow.user_name)
        = some (some "alice")) :=
  ⟨(C5_upsert_user_name ⟨[(0, "A"), (1, "B")], [⟨1, "p", some 0, some "alice"⟩], true⟩
      "p" 1 none (by decide)).1,
   (C5_upsert_user_name ⟨[(0, "A"), (1, "B")], [⟨1, "p", some 0, some "alice"⟩], true⟩
      "p" 1 none (by decide)).2 ⟨1, "p", some 0, some "alice"⟩ (by decide)⟩

/-! ## Claim C2: `prune_invalid_paths` and Cancel -/

theorem pruneLoop_prompts_ge (dbC : Db) (pex : String → Bool) (ch : Nat → PruneChoice) :
    ∀ (fs pending : List FolderRow) (k : Nat),
      k ≤ (pruneLoop dbC pex ch pending k fs).prompts := by
  intro fs
  induction fs with
  | nil => intro pending k; simp [pruneLoop]
  | cons f rest ih =>
    intro pending k
    by_cases hex : pex f.path
    · rw [show pruneLoop dbC pex ch pending k (f :: rest)
          = pruneLoop dbC pex ch pending k rest from by simp [pruneLoop, hex]]
      exact ih pending k
    · cases hch : ch k with
      | yes =>
        rw [show pruneLoop dbC pex ch pending k (f :: rest)
            = pruneLoop dbC pex ch (pending.filter (fun g => g.id ≠ f.id)) (k + 1) rest from by
          simp [pruneLoop, hex, hch]]
        exact le_trans (Nat.le_succ k) (ih _ _)
      | no =>
        rw [show pruneLoop dbC pex ch pending k (f :: rest)
            = pruneLoop dbC pex ch pending (k + 1) rest from by simp [pruneLoop, hex, hch]]
        exact le_trans (Nat.le_succ k) (ih _ _)
      | skipEntry =>
        rw [show pruneLoop dbC pex ch pending k (f :: rest)
            = pruneLoop dbC pex ch pending (k + 1) rest from by simp [pruneLoop, hex, hch]]
        exact le_trans (Nat.le_succ k) (ih _ _)
      | cancel =>
        rw [show pruneLoop dbC pex ch pending k (f :: rest)
            = ⟨dbC, false, k + 1⟩ from by simp [pruneLoop, hex, hch]]
        exact Nat.le_succ k

theorem pruneLoop_false_rollback (dbC : Db) (pex : String → Bool) (ch : Nat → PruneChoice) :
    ∀ (fs pending : List FolderRow) (k : Nat),
      (pruneLoop dbC pex ch pending k fs).ok = false →
      (pruneLoop dbC pex ch pending k fs).db = dbC := by
  intro fs
  induction fs with
  | nil => intro pending k h; simp [pruneLoop] at h
  | cons f rest ih =>
    intro pending k h
    by_cases hex : pex f.path
    · rw [show pruneLoop dbC pex ch pending k (f :: rest)
          = pruneLoop dbC pex ch pending k rest from by simp [pruneLoop, hex]] at h ⊢
      exact ih pending k h
    · cases hch : ch k with
      | yes =>
        rw [show pruneLoop dbC pex ch pending k (f :: rest)
            = pruneLoop dbC pex ch (pending.filter (fun g => g.id ≠ f.id)) (k + 1) rest from by
          simp [pruneLoop, hex, hch]] at h ⊢
        exact ih _ _ h
      | no =>
        rw [show pruneLoop dbC pex ch pending k (f :: rest)
            = pruneLoop dbC pex ch pending (k + 1) rest from by simp [pruneLoop, hex, hch]] at h ⊢
        exact ih _ _ h
      | skipEntry =>
        rw [show pruneLoop dbC pex ch pending k (f :: rest)
            = pruneLoop dbC pex ch pending (k + 1) rest from by simp [pruneLoop, hex, hch]] at h ⊢
        exact ih _ _ h
      | cancel =>
        rw [show pruneLoop dbC pex ch pending k (f :: rest)
            = ⟨dbC, false, k + 1⟩ from by simp [pruneLoop, hex, hch]]

theorem pruneLoop_choices_congr (dbC : Db) (pex : String → Bool)
    (ch ch' : Nat → PruneChoice) :
    ∀ (fs pending : List FolderRow) (k : Nat),
      (∀ j, k ≤ j → j < (pruneLoop dbC pex ch pending k fs).prompts → ch' j = ch j) →
      pruneLoop dbC pex ch' pending k fs = pruneLoop dbC pex ch pending k fs := by
  intro fs
  induction fs with
  | nil => intro pending k _; simp [pruneLoop]
  | cons f rest ih =>
    intro pending k hag
    by_cases hex : pex f.path
    · rw [show pruneLoop dbC pex ch pending k (f :: rest)
          = pruneLoop dbC pex ch pending k rest from by simp [pruneLoop, hex]] at hag
      rw [show pruneLoop dbC pex ch' pending k (f :: rest)
          = pruneLoop dbC pex ch' pending k rest from by simp [pruneLoop, hex]]
      rw [show pruneLoop dbC pex ch pending k (f :: rest)
          = pruneLoop dbC pex ch pending k rest from by simp [pruneLoop, hex]]
      exact ih pending k hag
    · have hkp : k < (pruneLoop dbC pex ch pending k (f :: rest)).prompts := by
        cases hch : ch k with
        | yes =>
          rw [show pruneLoop dbC pex ch pending k (f :: rest)
              = pruneLoop dbC pex ch (pending.filter (fun g => g.id ≠ f.id)) (k + 1) rest from by
            simp [pruneLoop, hex, hch]]
          exact lt_of_lt_of_le (Nat.lt_succ_self k) (pruneLoop_prompts_ge dbC pex ch _ _ _)
        | no =>
          rw [show pruneLoop dbC pex ch pending k (f :: rest)
              = pruneLoop dbC pex ch pending (k + 1) rest from by simp [pruneLoop, hex, hch]]
          exact lt_of_lt_of_le (Nat.lt_succ_self k) (pruneLoop_prompts_ge dbC pex ch _ _ _)
        | skipEntry =>
          rw [show pruneLoop dbC pex ch pending k (f :: rest)
              = pruneLoop dbC pex ch pending (k + 1) rest from by simp [pruneLoop, hex, hch]]
          exact lt_of_lt_of_le (Nat.lt_succ_self k) (pruneLoop_prompts_ge dbC pex ch _ _ _)
        | cancel =>
          rw [show pruneLoop dbC pex ch pending k (f :: rest)
              = ⟨dbC, false, k + 1⟩ from by simp [pruneLoop, hex, hch]]
          exact Nat.lt_succ_self k
      have hk : ch' k = ch k := hag k (le_refl k) hkp
      cases hch : ch k with
      | yes =>
        have hch' : ch' k = PruneChoice.yes := by rw [hk, hch]
        rw [show pruneLoop dbC pex ch' pending k (f :: rest)
            = pruneLoop dbC pex ch' (pending.filter (fun g => g.id ≠ f.id)) (k + 1) rest from by
          simp [pruneLoop, hex, hch']]
        rw [show pruneLoop dbC pex ch pending k (f :: rest)
            = pruneLoop dbC pex ch (pending.filter (fun g => g.id ≠ f.id)) (k + 1) rest from by
          simp [pruneLoop, hex, hch]]
        refine ih _ _ ?_
        intro j hj1 hj2
        refine hag j (le_trans (Nat.le_succ k) hj1) ?_
        rw [show pruneLoop dbC pex ch pending k (f :: rest)
            = pruneLoop dbC pex ch (pending.filter (fun g => g.id ≠ f.id)) (k + 1) rest from by
          simp [pruneLoop, hex, hch]]
        exact hj2
      | no =>
        have hch' : ch' k = PruneChoice.no := by rw [hk, hch]
        rw [show pruneLoop dbC pex ch' pending k (f :: rest)
            = pruneLoop dbC pex ch' pending (k + 1) rest from by simp [pruneLoop, hex, hch']]
        rw [show pruneLoop dbC pex ch pending k (f :: rest)
            = pruneLoop dbC pex ch pending (k + 1) rest from by simp [pruneLoop, hex, hch]]
        refine ih _ _ ?_
        intro j hj1 hj2
        refine hag j (le_trans (Nat.le_succ k) hj1) ?_
        rw [show pruneLoop dbC pex ch pending k (f :: rest)
            = pruneLoop dbC pex ch pending (k + 1) rest from by simp [pruneLoop, hex, hch]]
        exact hj2
      | skipEntry =>
        have hch' : ch' k = PruneChoice.skipEntry := by rw [hk, hch]
        rw [show pruneLoop dbC pex ch' pending k (f :: rest)
            = pruneLoop dbC pex ch' pending (k + 1) rest from by simp [pruneLoop, hex, hch']]
        rw [show pruneLoop dbC pex ch pending k (f :: rest)
            = pruneLoop dbC pex ch pending (k + 1) rest from by simp [pruneLoop, hex, hch]]
        refine ih _ _ ?_
        intro j hj1 hj2
        refine hag j (le_trans (Nat.le_succ k) hj1) ?_
        rw [show pruneLoop dbC pex ch pending k (f :: rest)
            = pruneLoop dbC pex ch pending (k + 1) rest from by simp [pruneLoop, hex, hch]]
        exact hj2
      | cancel =>
        have hch' : ch' k = PruneChoice.cancel := by rw [hk, hch]
        rw [show pruneLoop dbC pex ch' pending k (f :: rest)
            = ⟨dbC, false, k + 1⟩ from by simp [pruneLoop, hex, hch']]
        rw [show pruneLoop dbC pex ch pending k (f :: rest)
            = ⟨dbC, false, k + 1⟩ from by simp [pruneLoop, hex, hch]]

/-- Counterexample to C2 as stated: two stored folders, both missing on
disk; the user answers Yes to the first prompt and Cancel to the second.
The committed store after the call still contains BOTH rows — the Yes
removal was executed only on the open connection and is rolled back by the
commit-less `conn.close()` in the Cancel branch, not left committed. -/
theorem C2_counterexample :
    ((prune_invalid_paths ⟨[], [⟨1, "/a", none, none⟩, ⟨2, "/b", none, none⟩], false⟩
        (fun _ => false) (fun k => if k = 0 then .yes else .cancel)).db
      = ⟨[], [⟨1, "/a", none, none⟩, ⟨2, "/b", none, none⟩], false⟩) ∧
    ((⟨1, "/a", none, none⟩ : FolderRow)
      ∈ (prune_invalid_paths ⟨[], [⟨1, "/a", none, none⟩, ⟨2, "/b", none, none⟩], false⟩
        (fun _ => false) (fun k => if k = 0 then .yes else .cancel)).db.folders) :=
  ⟨by decide, by decide⟩

/-- C2 amended: choosing Cancel (or dismissing the prompt) stops all
further prompts, but rolls back every earlier removal of this run — the
committed store is exactly the pre-call store (the connection closes
without commit); removals become durable only when the loop completes.
"Stops further prompts" is captured by the second conjunct: the outcome
depends only on the answers to the prompts actually shown. -/
theorem C2_prune_cancel_rolls_back (db : Db) (pex : String → Bool)
    (choices : Nat → PruneChoice) :
    ((prune_invalid_paths db pex choices).ok = false →
      (prune_invalid_paths db pex choices).db = db) ∧
    (∀ choices' : Nat → PruneChoice,
      (∀ j, j < (prune_invalid_paths db pex choices).prompts → choices' j = choices j) →
      prune_invalid_paths db pex choices' = prune_invalid_paths db pex choices) := by
  constructor
  · intro h
    exact pruneLoop_false_rollback db pex choices db.folders db.folders 0 h
  · intro choices' hag
    exact pruneLoop_choices_congr db pex choices choices' db.folders db.folders 0
      (fun j _ hj => hag j hj)

/-- Witness for C2 amended: a cancelled run over one missing folder leaves
the committed store untouched. -/
theorem C2_witness :
    (prune_invalid_paths ⟨[], [⟨1, "/a", none, none⟩], false⟩ (fun _ => false)
      (fun _ => .cancel)).db = ⟨[], [⟨1, "/a", none, none⟩], false⟩ :=
  (C2_prune_cancel_rolls_back ⟨[], [⟨1, "/a", none, none⟩], false⟩ (fun _ => false)
    (fun _ => .cancel)).1 (by decide)

/-! ## Claim C4: `import_csv` row handling -/

theorem importLoop_cons_short (dbC : Db) (colsHasUser : Bool) (u : Option String)
    (pending : List FolderRow) (count : Nat) (row : List String)
    (rest : List (List String)) (hlen : row.length < 2) :
    importLoop dbC colsHasUser u pending count (row :: rest)
      = importLoop dbC colsHasUser u pending count rest := by
  simp [importLoop, Nat.not_le.mpr hlen]

theorem importLoop_cons_badparse (dbC : Db) (colsHasUser : Bool) (u : Option String)
    (pending : List FolderRow) (count : Nat) (row : List String)
    (rest : List (List String)) (hlen : 2 ≤ row.length)
    (hparse : pyInt (row.getD 1 "") = none) :
    importLoop dbC colsHasUser u pending count (row :: rest) = ⟨dbC, false, count⟩ := by
  rw [List.getD_eq_getElem?_getD] at hparse
  simp [importLoop, hlen, hparse]

theorem importLoop_cons_known (dbC : Db) (colsHasUser : Bool) (u : Option String)
    (pending : List FolderRow) (count : Nat) (row : List String)
    (rest : List (List String)) (cid : Int) (hlen : 2 ≤ row.length)
    (hparse : pyInt (row.getD 1 "") = some cid)
    (hknown : dbC.categories.any (fun c => (c.1 : Int) = cid) = true) :
    importLoop dbC colsHasUser u pending count (row :: rest)
      = importLoop dbC colsHasUser u
          (upsertFolder pending (row.getD 0 "") (some cid.toNat)
            (if colsHasUser ∧ u.isSome then u else none)) (count + 1) rest := by
  rw [List.getD_eq_getElem?_getD] at hparse
  rw [List.getD_eq_getElem?_getD]
  simp [importLoop, hlen, hparse, hknown]

theorem importLoop_cons_unknown (dbC : Db) (colsHasUser : Bool) (u : Option String)
    (pending : List FolderRow) (count : Nat) (row : List String)
    (rest : List (List String)) (cid : Int) (hlen : 2 ≤ row.length)
    (hparse : pyInt (row.getD 1 "") = some cid)
    (hknown : dbC.categories.any (fun c => (c.1 : Int) = cid) = false) :
    importLoop dbC colsHasUser u pending count (row :: rest)
      = importLoop dbC colsHasUser u pending count rest := by
  rw [List.getD_eq_getElem?_getD] at hparse
  simp [importLoop, hlen, hparse, hknown]

theorem importLoop_false_rollback (dbC : Db) (colsHasUser : Bool) (u : Option String) :
    ∀ (rows : List (List String)) (pending : List FolderRow) (count : Nat),
      (importLoop dbC colsHasUser u pending count rows).ok = false →
      (importLoop dbC colsHasUser u pending count rows).db = dbC := by
  intro rows
  induction rows with
  | nil => intro pending count h; simp [importLoop] at h
  | cons row rest ih =>
    intro pending count h
    by_cases hlen : 2 ≤ row.length
    · cases hparse : pyInt (row.getD 1 "") with
      | none =>
        rw [importLoop_cons_badparse dbC colsHasUser u pending count row rest hlen hparse]
      | some cid =>
        by_cases hknown : dbC.categories.any (fun c => (c.1 : Int) = cid)
        · rw [importLoop_cons_known dbC colsHasUser u pending count row rest cid
            hlen hparse hknown] at h ⊢
          exact ih _ _ h
        · rw [importLoop_cons_unknown dbC colsHasUser u pending count row rest cid
            hlen hparse (by simpa using hknown)] at h ⊢
          exact ih _ _ h
    · rw [importLoop_cons_short dbC colsHasUser u pending count row rest
        (Nat.not_le.mp hlen)] at h ⊢
      exact ih _ _ h

theorem importLoop_all_parse_ok (dbC : Db) (colsHasUser : Bool) (u : Option String) :
    ∀ (rows : List (List String)) (pending : List FolderRow) (count : Nat),
      (∀ r ∈ rows, 2 ≤ r.length → (pyInt (r.getD 1 "")).isSome) →
      (importLoop dbC colsHasUser u pending count rows).ok = true := by
  intro rows
  induction rows with
  | nil => intro pending count _; simp [importLoop]
  | cons row rest ih =>
    intro pending count hall
    by_cases hlen : 2 ≤ row.length
    · cases hparse : pyInt (row.getD 1 "") with
      | none =>
        exfalso
        have := hall row (List.mem_cons_self row rest) hlen
        rw [hparse] at this
        simp at this
      | some cid =>
        by_cases hknown : dbC.categories.any (fun c => (c.1 : Int) = cid)
        · rw [importLoop_cons_known dbC colsHasUser u pending count row rest cid
            hlen hparse hknown]
          exact ih _ _ (fun r hr => hall r (List.mem_cons_of_mem row hr))
        · rw [importLoop_cons_unknown dbC colsHasUser u pending count row rest cid
            hlen hparse (by simpa using hknown)]
          exact ih _ _ (fun r hr => hall r (List.mem_cons_of_mem row hr))
    · rw [importLoop_cons_short dbC colsHasUser u pending count row rest
        (Nat.not_le.mp hlen)]
      exact ih _ _ (fun r hr => hall r (List.mem_cons_of_mem row hr))

/-- Counterexample to C4 as stated: rows `["q1", "x"]` (second column not an
integer) then `["q2", "0"]` (valid, category 0 exists).  `int("x")` raises
`ValueError`, the broad `except` returns `False`, the never-reached
`conn.commit()` means the run's inserts are rolled back — so the subsequent
valid row "q2" is NOT imported, and the committed store is unchanged. -/
theorem C4_counterexample :
    (import_csv ⟨[(0, "Rock")], [], false⟩ none [["q1", "x"], ["q2", "0"]]
      = ⟨⟨[(0, "Rock")], [], false⟩, false, 0⟩) ∧
    (¬ ∃ f ∈ (import_csv ⟨[(0, "Rock")], [], false⟩ none
        [["q1", "x"], ["q2", "0"]]).db.folders, f.path = "q2") :=
  ⟨by decide, by decide⟩

/-- C4 amended: a row with fewer than two columns, or one whose (integer)
category id does not exist, is reported and skipped with processing
continuing; but a row whose second column is not parseable as an integer
raises `ValueError`, aborting the entire import with `False` and rolling
back every pending insert of the run (the committed folders are unchanged).
When every row parses, the loop runs to completion and commits. -/
theorem C4_import_csv_row_handling (dbC db : Db) (colsHasUser : Bool) (u : Option String)
    (pending : List FolderRow) (count : Nat) (row : List String)
    (rest rows : List (List String)) :
    (row.length < 2 →
      importLoop dbC colsHasUser u pending count (row :: rest)
        = importLoop dbC colsHasUser u pending count rest) ∧
    (∀ cid : Int, 2 ≤ row.length → pyInt (row.getD 1 "") = some cid →
      dbC.categories.any (fun c => (c.1 : Int) = cid) = false →
      importLoop dbC colsHasUser u pending count (row :: rest)
        = importLoop dbC colsHasUser u pending count rest) ∧
    (2 ≤ row.length → pyInt (row.getD 1 "") = none →
      importLoop dbC colsHasUser u pending count (row :: rest) = ⟨dbC, false, count⟩) ∧
    ((import_csv db u rows).ok = false → (import_csv db u rows).db.folders = db.folders) ∧
    ((∀ r ∈ rows, 2 ≤ r.length → (pyInt (r.getD 1 "")).isSome) →
      (import_csv db u rows).ok = true) := by
  refine ⟨?_, ?_, ?_, ?_, ?_⟩
  · intro hlen
    exact importLoop_cons_short dbC colsHasUser u pending count row rest hlen
  · intro cid hlen hparse hknown
    exact importLoop_cons_unknown dbC colsHasUser u pending count row rest cid hlen hparse hknown
  · intro hlen hparse
    exact importLoop_cons_badparse dbC colsHasUser u pending count row rest hlen hparse
  · intro h
    unfold import_csv at h ⊢
    rw [importLoop_false_rollback _ _ _ _ _ _ h]
    split <;> rfl
  · intro hall
    unfold import_csv
    exact importLoop_all_parse_ok _ _ _ _ _ _ hall

/-- Witness for C4 amended at concrete inputs: the unparseable row aborts
with the committed store rolled back, while an import whose rows all parse
(unknown ids merely skipped) completes successfully. -/
theorem C4_witness :
    (importLoop ⟨[(0, "Rock")], [], false⟩ false none [] 0 [["q1", "x"], ["q2", "0"]]
      = ⟨⟨[(0, "Rock")], [], false⟩, false, 0⟩) ∧
    ((import_csv ⟨[(0, "Rock")], [], false⟩ none [["q2", "0"], ["q3", "9"]]).ok = true) := by
  constructor
  · exact (C4_import_csv_row_handling ⟨[(0, "Rock")], [], false⟩ ⟨[(0, "Rock")], [], false⟩
      false none [] 0 ["q1", "x"] [["q2", "0"]] []).2.2.1 (by decide) (by decide)
  · exact (C4_import_csv_row_handling ⟨[(0, "Rock")], [], false⟩ ⟨[(0, "Rock")], [], false⟩
      false none [] 0 ["q1", "x"] [] [["q2", "0"], ["q3", "9"]]).2.2.2.2 (by decide)

/-! ## Claim C1: a failed probe inside `write_playlists` -/

/-- C1 (code bug): `ffprobe` itself degrades a non-zero exit to the
empty-object string, but `write_playlists` then evaluates
`json.loads(...)['format']['tags']` unguarded: on a failed probe the
`['format']` access raises `KeyError` and aborts the whole run instead of
being treated like "no genre tag"; unparseable output of a zero-exit probe
likewise escapes as a `json.loads` error.  Evaluated here on a one-folder,
one-file store. -/
theorem C1_probe_failure_aborts_run :
    (ffprobe ⟨1, none⟩ = some (Json.obj [])) ∧
    (extract_genre (ffprobe ⟨1, none⟩) = .error (.keyError "format")) ∧
    (write_playlists allowed_extensions (fun _ => ⟨1, none⟩) "01/01/2025 00:00:00"
        [⟨["music", "A"], "Rock", [.file "a.mp3"]⟩]
      = .error (.keyError "format")) ∧
    (write_playlists allowed_extensions (fun _ => ⟨0, none⟩) "01/01/2025 00:00:00"
        [⟨["music", "A"], "Rock", [.file "a.mp3"]⟩]
      = .error .jsonDecodeError) :=
  ⟨rfl, rfl, rfl, rfl⟩

/-! ## Claim C6: the Scanner -/

theorem getLastD_append_singleton {α : Type} (l : List α) (a x : α) :
    (l ++ [a]).getLastD x = a := by
  simp [List.getLastD_eq_getLast?, List.getLast?_concat]

/-- Membership in the yielded-entry list of `scantree`: exactly the paths
`d ++ [name]` of non-directory entries of real directories reachable
without following symlinks. -/
theorem mem_scantree :
    ∀ (p : Path) (es : List FSEntry) (q : Path),
      q ∈ scantree p es ↔
        ∃ d cs, (d, cs) ∈ dirsUnder p es ∧
          ∃ e, e ∈ cs ∧ e.isRealDir = false ∧ q = d ++ [e.entryName] := by
  intro p es
  induction p, es using scantree.induct with
  | case1 p =>
    intro q
    simp [scantree, dirsUnder, subdirs]
  | case2 p n cs rest ih1 ih2 =>
    intro q
    have hmemiff : ∀ x : Path × List FSEntry,
        x ∈ dirsUnder p (.dir n cs :: rest) ↔
          x = (p, .dir n cs :: rest) ∨ x = (p ++ [n], cs)
            ∨ x ∈ subdirs (p ++ [n]) cs ∨ x ∈ subdirs p rest := by
      intro x
      simp [dirsUnder, subdirs, List.mem_cons, List.mem_append, or_assoc]
    constructor
    · intro hq
      rcases List.mem_append.mp (by simpa [scantree] using hq) with h | h
      · rcases (ih1 q).mp h with ⟨d, cs', hmem, e, he, hnd, hqe⟩
        rcases List.mem_cons.mp hmem with heq | hsub
        · exact ⟨d, cs', (hmemiff _).mpr (Or.inr (Or.inl heq)), e, he, hnd, hqe⟩
        · exact ⟨d, cs', (hmemiff _).mpr (Or.inr (Or.inr (Or.inl hsub))), e, he, hnd, hqe⟩
      · rcases (ih2 q).mp h with ⟨d, cs', hmem, e, he, hnd, hqe⟩
        rcases List.mem_cons.mp hmem with heq | hsub
        · rw [Prod.mk.injEq] at heq
          obtain ⟨hd, hcs⟩ := heq
          exact ⟨p, .dir n cs :: rest, (hmemiff _).mpr (Or.inl rfl),
            e, List.mem_cons_of_mem _ (hcs ▸ he), hnd, hd ▸ hqe⟩
        · exact ⟨d, cs', (hmemiff _).mpr (Or.inr (Or.inr (Or.inr hsub))), e, he, hnd, hqe⟩
    · rintro ⟨d, cs', hmem, e, he, hnd, hqe⟩
      have hgoal : q ∈ scantree (p ++ [n]) cs ∨ q ∈ scantree p rest := by
        rcases (hmemiff _).mp hmem with heq | heq | hsub | hsub
        · rw [Prod.mk.injEq] at heq
          obtain ⟨hd, hcs⟩ := heq
          rcases List.mem_cons.mp (hcs ▸ he) with he1 | he2
          · rw [he1] at hnd; simp [FSEntry.isRealDir] at hnd
          · right
            exact (ih2 q).mpr ⟨p, rest, List.mem_cons_self _ _, e, he2, hnd, hd ▸ hqe⟩
        · rw [Prod.mk.injEq] at heq
          obtain ⟨hd, hcs⟩ := heq
          left
          exact (ih1 q).mpr ⟨p ++ [n], cs, List.mem_cons_self _ _, e, hcs ▸ he, hnd, hd ▸ hqe⟩
        · left
          exact (ih1 q).mpr ⟨d, cs', List.mem_cons_of_mem _ hsub, e, he, hnd, hqe⟩
        · right
          exact (ih2 q).mpr ⟨d, cs', List.mem_cons_of_mem _ hsub, e, he, hnd, hqe⟩
      simpa [scantree, List.mem_append] using hgoal
  | case3 p n rest ih =>
    intro q
    constructor
    · intro hq
      rcases List.mem_cons.mp (by simpa [scantree] using hq) with h | h
      · exact ⟨p, .file n :: rest, List.mem_cons_self _ _,
          .file n, List.mem_cons_self _ _, rfl, by simp [FSEntry.entryName, h]⟩
      · rcases (ih q).mp h with ⟨d, cs', hmem, e, he, hnd, hqe⟩
        rcases List.mem_cons.mp hmem with heq | hsub
        · rw [Prod.mk.injEq] at heq
          obtain ⟨hd, hcs⟩ := heq
          exact ⟨p, .file n :: rest, List.mem_cons_self _ _,
            e, List.mem_cons_of_mem _ (hcs ▸ he), hnd, hd ▸ hqe⟩
        · exact ⟨d, cs', by simpa [dirsUnder, subdirs] using Or.inr hsub, e, he, hnd, hqe⟩
    · rintro ⟨d, cs', hmem, e, he, hnd, hqe⟩
      have hmem2 : (d, cs') = (p, FSEntry.file n :: rest) ∨ (d, cs') ∈ subdirs p rest := by
        simpa [dirsUnder, subdirs] using hmem
      have hgoal : q = p ++ [n] ∨ q ∈ scantree p rest := by
        rcases hmem2 with heq | hsub
        · rw [Prod.mk.injEq] at heq
          obtain ⟨hd, hcs⟩ := heq
          rcases List.mem_cons.mp (hcs ▸ he) with he1 | he2
          · left; rw [hqe, hd, he1]; rfl
          · right
            exact (ih q).mpr ⟨p, rest, List.mem_cons_self _ _, e, he2, hnd, hd ▸ hqe⟩
        · right
          exact (ih q).mpr ⟨d, cs', List.mem_cons_of_mem _ hsub, e, he, hnd, hqe⟩
      simpa [scantree, List.mem_cons] using hgoal
  | case4 p n tgt rest ih =>
    intro q
    constructor
    · intro hq
      rcases List.mem_cons.mp (by simpa [scantree] using hq) with h | h
      · exact ⟨p, .symlinkDir n tgt :: rest, List.mem_cons_self _ _,
          .symlinkDir n tgt, List.mem_cons_self _ _, rfl, by simp [FSEntry.entryName, h]⟩
      · rcases (ih q).mp h with ⟨d, cs', hmem, e, he, hnd, hqe⟩
        rcases List.mem_cons.mp hmem with heq | hsub
        · rw [Prod.mk.injEq] at heq
          obtain ⟨hd, hcs⟩ := heq
          exact ⟨p, .symlinkDir n tgt :: rest, List.mem_cons_self _ _,
            e, List.mem_cons_of_mem _ (hcs ▸ he), hnd, hd ▸ hqe⟩
        · exact ⟨d, cs', by simpa [dirsUnder, subdirs] using Or.inr hsub, e, he, hnd, hqe⟩
    · rintro ⟨d, cs', hmem, e, he, hnd, hqe⟩
      have hmem2 : (d, cs') = (p, FSEntry.symlinkDir n tgt :: rest)
          ∨ (d, cs') ∈ subdirs p rest := by
        simpa [dirsUnder, subdirs] using hmem
      have hgoal : q = p ++ [n] ∨ q ∈ scantree p rest := by
        rcases hmem2 with heq | hsub
        · rw [Prod.mk.injEq] at heq
          obtain ⟨hd, hcs⟩ := heq
          rcases List.mem_cons.mp (hcs ▸ he) with he1 | he2
          · left; rw [hqe, hd, he1]; rfl
          · right
            exact (ih q).mpr ⟨p, rest, List.mem_cons_self _ _, e, he2, hnd, hd ▸ hqe⟩
        · right
          exact (ih q).mpr ⟨d, cs', List.mem_cons_of_mem _ hsub, e, he, hnd, hqe⟩
      simpa [scantree, List.mem_cons] using hgoal

theorem mem_getpathsAux (allowed : List String) :
    ∀ (qs : List Path) (acc : List Path) (d : Path),
      d ∈ getpathsAux allowed acc qs ↔
        d ∈ acc ∨ ∃ q ∈ qs, extMatch allowed (q.getLastD "") = true ∧ d = q.dropLast := by
  intro qs
  induction qs with
  | nil => intro acc d; simp [getpathsAux]
  | cons q rest ih =>
    intro acc d
    by_cases hm : extMatch allowed (q.getLastD "")
    · have hm' : extMatch allowed ((q.getLast?).getD "") = true := by
        rw [← List.getLastD_eq_getLast?]; exact hm
      by_cases hin : q.dropLast ∈ acc
      · rw [show getpathsAux allowed acc (q :: rest) = getpathsAux allowed acc rest from by
          simp [getpathsAux, hm', hin]]
        rw [ih acc d]
        constructor
        · rintro (h | ⟨q', hq', hmq', hdq'⟩)
          · exact Or.inl h
          · exact Or.inr ⟨q', List.mem_cons_of_mem _ hq', hmq', hdq'⟩
        · rintro (h | ⟨q', hq', hmq', hdq'⟩)
          · exact Or.inl h
          · rcases List.mem_cons.mp hq' with rfl | hq2
            · exact Or.inl (hdq' ▸ hin)
            · exact Or.inr ⟨q', hq2, hmq', hdq'⟩
      · rw [show getpathsAux allowed acc (q :: rest)
            = getpathsAux allowed (acc ++ [q.dropLast]) rest from by
          simp [getpathsAux, hm', hin]]
        rw [ih (acc ++ [q.dropLast]) d]
        constructor
        · rintro (h | ⟨q', hq', hmq', hdq'⟩)
          · rcases List.mem_append.mp h with h1 | h1
            · exact Or.inl h1
            · exact Or.inr ⟨q, List.mem_cons_self _ _, hm, by simpa using h1⟩
          · exact Or.inr ⟨q', List.mem_cons_of_mem _ hq', hmq', hdq'⟩
        · rintro (h | ⟨q', hq', hmq', hdq'⟩)
          · exact Or.inl (List.mem_append.mpr (Or.inl h))
          · rcases List.mem_cons.mp hq' with rfl | hq2
            · exact Or.inl (List.mem_append.mpr (Or.inr (by simp [hdq'])))
            · exact Or.inr ⟨q', hq2, hmq', hdq'⟩
    · have hm' : extMatch allowed ((q.getLast?).getD "") = false := by
        rw [← List.getLastD_eq_getLast?]
        exact Bool.not_eq_true _ ▸ hm
      rw [show getpathsAux allowed acc (q :: rest) = getpathsAux allowed acc rest from by
        simp [getpathsAux, hm']]
      rw [ih acc d]
      constructor
      · rintro (h | ⟨q', hq', hmq', hdq'⟩)
        · exact Or.inl h
        · exact Or.inr ⟨q', List.mem_cons_of_mem _ hq', hmq', hdq'⟩
      · rintro (h | ⟨q', hq', hmq', hdq'⟩)
        · exact Or.inl h
        · rcases List.mem_cons.mp hq' with rfl | hq2
          · exact absurd hmq' (by simpa using hm)
          · exact Or.inr ⟨q', hq2, hmq', hdq'⟩

theorem nodup_getpathsAux (allowed : List String) :
    ∀ (qs : List Path) (acc : List Path), acc.Nodup → (getpathsAux allowed acc qs).Nodup := by
  intro qs
  induction qs with
  | nil => intro acc h; simpa [getpathsAux] using h
  | cons q rest ih =>
    intro acc hacc
    by_cases hm : extMatch allowed (q.getLastD "")
    · have hm' : extMatch allowed ((q.getLast?).getD "") = true := by
        rw [← List.getLastD_eq_getLast?]; exact hm
      by_cases hin : q.dropLast ∈ acc
      · rw [show getpathsAux allowed acc (q :: rest) = getpathsAux allowed acc rest from by
          simp [getpathsAux, hm', hin]]
        exact ih acc hacc
      · rw [show getpathsAux allowed acc (q :: rest)
            = getpathsAux allowed (acc ++ [q.dropLast]) rest from by
          simp [getpathsAux, hm', hin]]
        refine ih _ ?_
        simp [List.nodup_append, hacc, List.disjoint_singleton, hin]
    · have hm' : extMatch allowed ((q.getLast?).getD "") = false := by
        rw [← List.getLastD_eq_getLast?]
        exact Bool.not_eq_true _ ▸ hm
      rw [show getpathsAux allowed acc (q :: rest) = getpathsAux allowed acc rest from by
        simp [getpathsAux, hm']]
      exact ih acc hacc

theorem scantree_scrubLinks : ∀ (p : Path) (es : List FSEntry),
    scantree p (scrubLinks es) = scantree p es := by
  intro p es
  induction p, es using scantree.induct with
  | case1 p => simp [scrubLinks, scantree]
  | case2 p n cs rest ih1 ih2 => simp [scrubLinks, scantree, ih1, ih2]
  | case3 p n rest ih => simp [scrubLinks, scantree, ih]
  | case4 p n tgt rest ih => simp [scrubLinks, scantree, ih]

/-- C6: for every root, `getpaths` returns exactly the distinct directories
(reachable from the root without following symbolic links) that directly
contain at least one non-directory entry — a regular file or a symlink,
real subdirectories are descended into instead — whose name's extension,
lowercased, is in the allow-list.  A directory whose matching entries all
lie in nested subdirectories is not itself returned; the result is
duplicate-free; and the listings behind symbolically linked directories are
never read: emptying them all does not change the result. -/
theorem C6_scanner_characterisation (allowed : List String) (p : Path) (es : List FSEntry) :
    (∀ d : Path, d ∈ getpaths allowed p es ↔
      ∃ cs, (d, cs) ∈ dirsUnder p es ∧
        ∃ e, e ∈ cs ∧ e.isRealDir = false ∧ extMatch allowed e.entryName = true) ∧
    (getpaths allowed p es).Nodup ∧
    getpaths allowed p (scrubLinks es) = getpaths allowed p es := by
  refine ⟨?_, nodup_getpathsAux allowed _ [] List.nodup_nil, ?_⟩
  · intro d
    rw [getpaths, mem_getpathsAux allowed _ [] d]
    simp only [List.mem_nil_iff, false_or]
    constructor
    · rintro ⟨q, hq, hmq, hdq⟩
      rcases (mem_scantree p es q).mp hq with ⟨d', cs, hmem, e, he, hnd, hqe⟩
      subst hqe
      rw [getLastD_append_singleton] at hmq
      have hd : d = d' := by rw [hdq, List.dropLast_concat]
      subst hd
      exact ⟨cs, hmem, e, he, hnd, hmq⟩
    · rintro ⟨cs, hmem, e, he, hnd, hm⟩
      refine ⟨d ++ [e.entryName], (mem_scantree p es _).mpr ⟨d, cs, hmem, e, he, hnd, rfl⟩,
        ?_, ?_⟩
      · rw [getLastD_append_singleton]; exact hm
      · rw [List.dropLast_concat]
  · unfold getpaths
    rw [scantree_scrubLinks]

/-! ## Claims C9 and C3: the Playlist Builder -/

theorem extendDedup_exists_append :
    ∀ (gs acc : List String), ∃ t, extendDedup acc gs = acc ++ t := by
  intro gs
  induction gs with
  | nil => intro acc; exact ⟨[], by simp [extendDedup]⟩
  | cons g gs ih =>
    intro acc
    by_cases h : g ∈ acc
    · simpa [extendDedup, h] using ih acc
    · obtain ⟨t, ht⟩ := ih (acc ++ [g])
      refine ⟨[g] ++ t, ?_⟩
      simp only [extendDedup, if_neg h, ht, List.append_assoc]

theorem mem_extendDedup :
    ∀ (gs acc : List String) (a : String), a ∈ extendDedup acc gs ↔ a ∈ acc ∨ a ∈ gs := by
  intro gs
  induction gs with
  | nil => intro acc a; simp [extendDedup]
  | cons g gs ih =>
    intro acc a
    by_cases h : g ∈ acc
    · rw [show extendDedup acc (g :: gs) = extendDedup acc gs from by simp [extendDedup, h]]
      rw [ih acc a]
      constructor
      · rintro (ha | ha)
        · exact Or.inl ha
        · exact Or.inr (List.mem_cons_of_mem _ ha)
      · rintro (ha | ha)
        · exact Or.inl ha
        · rcases List.mem_cons.mp ha with rfl | ha2
          · exact Or.inl h
          · exact Or.inr ha2
    · rw [show extendDedup acc (g :: gs) = extendDedup (acc ++ [g]) gs from by
        simp [extendDedup, h]]
      rw [ih (acc ++ [g]) a]
      simp only [List.mem_append, List.mem_singleton, List.mem_cons]
      tauto

theorem nodup_extendDedup :
    ∀ (gs acc : List String), acc.Nodup → (extendDedup acc gs).Nodup := by
  intro gs
  induction gs with
  | nil => intro acc h; simpa [extendDedup] using h
  | cons g gs ih =>
    intro acc hacc
    by_cases h : g ∈ acc
    · rw [show extendDedup acc (g :: gs) = extendDedup acc gs from by simp [extendDedup, h]]
      exact ih acc hacc
    · rw [show extendDedup acc (g :: gs) = extendDedup (acc ++ [g]) gs from by
        simp [extendDedup, h]]
      refine ih _ ?_
      simp [List.nodup_append, hacc, h]

theorem process_file_ok (probe : Path → ProcResult) (fp : Path)
    (pd pd' : PlaylistData) (x : String)
    (h : process_file probe fp pd x = .ok pd') :
    pd'.files = pd.files ++ [fp ++ [x]] ∧
    (∃ t, pd'.genres = pd.genres ++ t) ∧
    (pd.genres.Nodup → pd'.genres.Nodup) ∧
    (∀ s, extract_genre (ffprobe (probe (fp ++ [x]))) = .ok (some s) →
      ∀ g ∈ pySplitSemi s, g ∈ pd'.genres) := by
  unfold process_file at h
  cases hg : extract_genre (ffprobe (probe (fp ++ [x]))) with
  | error e =>
    rw [hg] at h
    exact absurd h (by simp)
  | ok gv =>
    rw [hg] at h
    cases gv with
    | none =>
      have hpd : pd' = (⟨pd.genres, pd.files ++ [fp ++ [x]]⟩ : PlaylistData) :=
        (Except.ok.inj h).symm
      subst hpd
      refine ⟨rfl, ⟨[], by simp⟩, fun hn => hn, ?_⟩
      intro s hs
      exact absurd hs (by simp)
    | some s0 =>
      have hpd : pd' = (⟨extendDedup pd.genres (pySplitSemi s0),
          pd.files ++ [fp ++ [x]]⟩ : PlaylistData) :=
        (Except.ok.inj h).symm
      subst hpd
      refine ⟨rfl, ?_, ?_, ?_⟩
      · obtain ⟨t, ht⟩ := extendDedup_exists_append (pySplitSemi s0) pd.genres
        exact ⟨t, ht⟩
      · intro hn
        exact nodup_extendDedup _ _ hn
      · intro s hs
        have hss : s0 = s := by simpa using hs
        subst hss
        intro g hgmem
        exact (mem_extendDedup _ _ _).mpr (Or.inr hgmem)

theorem process_files_ok (probe : Path → ProcResult) (fp : Path) :
    ∀ (xs : List String) (pd pd' : PlaylistData),
      process_files probe fp pd xs = .ok pd' →
      (pd'.files = pd.files ++ xs.map (fun x => fp ++ [x])) ∧
      (∃ t, pd'.genres = pd.genres ++ t) ∧
      (pd.genres.Nodup → pd'.genres.Nodup) ∧
      (∀ x ∈ xs, ∀ s, extract_genre (ffprobe (probe (fp ++ [x]))) = .ok (some s) →
        ∀ g ∈ pySplitSemi s, g ∈ pd'.genres) := by
  intro xs
  induction xs with
  | nil =>
    intro pd pd' h
    have hpd : pd = pd' := by simpa [process_files] using h
    subst hpd
    exact ⟨by simp, ⟨[], by simp⟩, fun hn => hn, by simp⟩
  | cons x xs ih =>
    intro pd pd' h
    unfold process_files at h
    cases h1 : process_file probe fp pd x with
    | error e => rw [h1] at h; exact absurd h (by simp)
    | ok pd1 =>
      rw [h1] at h
      obtain ⟨hf, ⟨t, hgt⟩, hn, hm⟩ := ih pd1 pd' h
      obtain ⟨hf1, ⟨t1, hgt1⟩, hn1, hm1⟩ := process_file_ok probe fp pd pd1 x h1
      refine ⟨?_, ⟨t1 ++ t, ?_⟩, ?_, ?_⟩
      · rw [hf, hf1, List.map_cons, List.append_assoc]
        rfl
      · rw [hgt, hgt1, List.append_assoc]
      · intro hnd
        exact hn (hn1 hnd)
      · intro y hy s hs g hg
        rcases List.mem_cons.mp hy with rfl | hy2
        · have : g ∈ pd1.genres := hm1 s hs g hg
          rw [hgt]
          exact List.mem_append_left _ this
        · exact hm y hy2 s hs g hg

theorem map_replace_cons_pos (k : String) (v : PlaylistData) (kv : String × PlaylistData)
    (pls : Playlists) (hk : kv.1 = k) :
    ((kv :: pls).map (fun kv => if kv.1 = k then (k, v) else kv))
      = (k, v) :: pls.map (fun kv => if kv.1 = k then (k, v) else kv) := by
  simp [hk]

theorem map_replace_cons_neg (k : String) (v : PlaylistData) (kv : String × PlaylistData)
    (pls : Playlists) (hk : ¬ kv.1 = k) :
    ((kv :: pls).map (fun kv => if kv.1 = k then (k, v) else kv))
      = kv :: pls.map (fun kv => if kv.1 = k then (k, v) else kv) := by
  simp [hk]

theorem find?_map_replace (k : String) (v : PlaylistData) :
    ∀ pls : Playlists,
      ((pls.map (fun kv => if kv.1 = k then (k, v) else kv)).find? (fun kv => kv.1 = k))
        = if pls.any (fun kv => kv.1 = k) then some (k, v) else none := by
  intro pls
  induction pls with
  | nil => rfl
  | cons kv pls ih =>
    by_cases hk : kv.1 = k
    · rw [map_replace_cons_pos k v kv pls hk]
      rw [List.find?_cons_of_pos _ (by simp)]
      rw [show ((kv :: pls).any fun kv => kv.1 = k) = true from by
        simp [List.any_cons]; exact Or.inl hk]
      rfl
    · rw [map_replace_cons_neg k v kv pls hk]
      rw [List.find?_cons_of_neg _ (by simpa using hk)]
      rw [ih]
      rw [show ((kv :: pls).any fun kv => kv.1 = k) = (pls.any fun kv => kv.1 = k) from by
        simp [List.any_cons, hk]]

theorem find?_eq_none_of_any_false (p : String × PlaylistData → Bool) (l : Playlists)
    (h : l.any p = false) : l.find? p = none := by
  rw [List.find?_eq_none]
  intro x hx
  rw [List.any_eq_false] at h
  exact fun hp => h x hx (by simpa using hp)

theorem getPlaylist_setPlaylist_self (pls : Playlists) (k : String) (v : PlaylistData) :
    getPlaylist (setPlaylist pls k v) k = v := by
  unfold getPlaylist setPlaylist
  by_cases h : pls.any (fun kv => kv.1 = k)
  · rw [if_pos h, find?_map_replace, if_pos h]
  · rw [if_neg h, List.find?_append,
      find?_eq_none_of_any_false _ _ ((Bool.not_eq_true _) ▸ h)]
    simp [List.find?]

theorem getPlaylist_setPlaylist_ne (pls : Playlists) (k q : String) (v : PlaylistData)
    (hne : q ≠ k) : getPlaylist (setPlaylist pls k v) q = getPlaylist pls q := by
  have hqk : ¬ ((k, v).1 = q) := fun hc => hne hc.symm
  unfold getPlaylist setPlaylist
  by_cases h : pls.any (fun kv => kv.1 = k)
  · rw [if_pos h]
    have hfind : ∀ pls0 : Playlists,
        ((pls0.map (fun kv => if kv.1 = k then (k, v) else kv)).find? (fun kv => kv.1 = q))
          = pls0.find? (fun kv => kv.1 = q) := by
      intro pls0
      induction pls0 with
      | nil => rfl
      | cons kv0 pls0 ih =>
        by_cases hk : kv0.1 = k
        · have hq3 : ¬ (kv0.1 = q) := by rw [hk]; exact fun hc => hne hc.symm
          rw [map_replace_cons_pos k v kv0 pls0 hk]
          rw [List.find?_cons_of_neg _ (by simpa using hqk)]
          rw [List.find?_cons_of_neg _ (by simpa using hq3)]
          exact ih
        · rw [map_replace_cons_neg k v kv0 pls0 hk]
          by_cases hq : kv0.1 = q
          · rw [List.find?_cons_of_pos _ (by simpa using hq),
              List.find?_cons_of_pos _ (by simpa using hq)]
          · rw [List.find?_cons_of_neg _ (by simpa using hq),
              List.find?_cons_of_neg _ (by simpa using hq)]
            exact ih
    rw [hfind]
  · rw [if_neg h, List.find?_append]
    cases hf : pls.find? (fun kv => kv.1 = q) with
    | some kv => rfl
    | none =>
      rw [show (([(k, v)] : Playlists).find? (fun kv => kv.1 = q)) = none from by
        rw [List.find?_cons_of_neg _ (by simpa using hqk)]; rfl]
      rfl

theorem any_setPlaylist_self (pls : Playlists) (k : String) (v : PlaylistData) :
    (setPlaylist pls k v).any (fun kv => kv.1 = k) = true := by
  unfold setPlaylist
  by_cases h : pls.any (fun kv => kv.1 = k)
  · rw [if_pos h, List.any_eq_true]
    rw [List.any_eq_true] at h
    obtain ⟨kv, hkv, hk⟩ := h
    have hk2 : kv.1 = k := by simpa using hk
    exact ⟨(k, v), List.mem_map.mpr ⟨kv, hkv, by simp [hk2]⟩, by simp⟩
  · rw [if_neg h, List.any_append]
    simp

theorem any_setPlaylist_of_any (pls : Playlists) (k q : String) (v : PlaylistData)
    (h : pls.any (fun kv => kv.1 = q) = true) :
    (setPlaylist pls k v).any (fun kv => kv.1 = q) = true := by
  unfold setPlaylist
  by_cases hk : pls.any (fun kv => kv.1 = k)
  · rw [if_pos hk, List.any_eq_true]
    rw [List.any_eq_true] at h
    obtain ⟨kv, hkv, hq⟩ := h
    have hq2 : kv.1 = q := by simpa using hq
    by_cases hkq : kv.1 = k
    · refine ⟨(k, v), List.mem_map.mpr ⟨kv, hkv, by simp [hkq]⟩, ?_⟩
      have : k = q := by rw [← hkq]; exact hq2
      simpa using this
    · exact ⟨kv, List.mem_map.mpr ⟨kv, hkv, by simp [hkq]⟩, hq⟩
  · rw [if_neg hk, List.any_append, h]
    simp

theorem getPlaylist_initPlaylist (pls : Playlists) (c q : String) :
    getPlaylist (initPlaylist pls c) q = getPlaylist pls q := by
  unfold initPlaylist
  by_cases h : pls.any (fun kv => kv.1 = c)
  · rw [if_pos h]
  · rw [if_neg h]
    unfold getPlaylist
    rw [List.find?_append]
    cases hf : pls.find? (fun kv => kv.1 = q) with
    | some kv => rfl
    | none =>
      by_cases hcq : ((c, (⟨[], []⟩ : PlaylistData)).1 = q)
      · rw [List.find?_cons_of_pos _ (by simpa using hcq)]
        rfl
      · rw [List.find?_cons_of_neg _ (by simpa using hcq)]
        rfl

theorem any_initPlaylist_self (pls : Playlists) (c : String) :
    (initPlaylist pls c).any (fun kv => kv.1 = c) = true := by
  unfold initPlaylist
  by_cases h : pls.any (fun kv => kv.1 = c)
  · rw [if_pos h]; exact h
  · rw [if_neg h, List.any_append]
    simp

theorem any_initPlaylist_of_any (pls : Playlists) (c q : String)
    (h : pls.any (fun kv => kv.1 = q) = true) :
    (initPlaylist pls c).any (fun kv => kv.1 = q) = true := by
  unfold initPlaylist
  by_cases hc : pls.any (fun kv => kv.1 = c)
  · rw [if_pos hc]; exact h
  · rw [if_neg hc, List.any_append, h]
    simp

theorem map_fst_replace (k : String) (v : PlaylistData) :
    ∀ pls : Playlists,
      ((pls.map (fun kv => if kv.1 = k then (k, v) else kv)).map Prod.fst) = pls.map Prod.fst := by
  intro pls
  induction pls with
  | nil => rfl
  | cons kv pls ih =>
    by_cases hk : kv.1 = k
    · simp only [List.map_cons, if_pos hk, ih]
      rw [← hk]
    · simp only [List.map_cons, if_neg hk, ih]

theorem mem_keys_iff_any (pls : Playlists) (k : String) :
    k ∈ pls.map Prod.fst ↔ pls.any (fun kv => kv.1 = k) = true := by
  rw [List.any_eq_true, List.mem_map]
  constructor
  · rintro ⟨kv, hkv, hfst⟩
    exact ⟨kv, hkv, by simp [hfst]⟩
  · rintro ⟨kv, hkv, hk⟩
    exact ⟨kv, hkv, by simpa using hk⟩

theorem keys_nodup_setPlaylist (pls : Playlists) (k : String) (v : PlaylistData)
    (h : (pls.map Prod.fst).Nodup) : ((setPlaylist pls k v).map Prod.fst).Nodup := by
  unfold setPlaylist
  by_cases hA : pls.any (fun kv => kv.1 = k)
  · rw [if_pos hA, map_fst_replace]
    exact h
  · rw [if_neg hA, List.map_append]
    have hk : k ∉ pls.map Prod.fst := fun hc => hA ((mem_keys_iff_any pls k).mp hc)
    simp [List.nodup_append, h, hk]

theorem keys_nodup_initPlaylist (pls : Playlists) (c : String)
    (h : (pls.map Prod.fst).Nodup) : ((initPlaylist pls c).map Prod.fst).Nodup := by
  unfold initPlaylist
  by_cases hA : pls.any (fun kv => kv.1 = c)
  · rw [if_pos hA]; exact h
  · rw [if_neg hA, List.map_append]
    have hk : c ∉ pls.map Prod.fst := fun hc => hA ((mem_keys_iff_any pls c).mp hc)
    simp [List.nodup_append, h, hk]

theorem getPlaylist_of_mem_of_keysNodup :
    ∀ (pls : Playlists) (kv : String × PlaylistData),
      (pls.map Prod.fst).Nodup → kv ∈ pls → getPlaylist pls kv.1 = kv.2 := by
  intro pls
  induction pls with
  | nil => intro kv _ hm; simp at hm
  | cons a pls ih =>
    intro kv hnd hm
    rw [List.map_cons] at hnd
    obtain ⟨ha, hnd2⟩ := List.nodup_cons.mp hnd
    rcases List.mem_cons.mp hm with rfl | hm2
    · unfold getPlaylist
      rw [List.find?_cons_of_pos _ (by simp)]
    · have hne : ¬ (a.1 = kv.1) := by
        intro hc
        exact ha (hc ▸ List.mem_map.mpr ⟨kv, hm2, rfl⟩)
      unfold getPlaylist
      rw [List.find?_cons_of_neg _ (by simpa using hne)]
      exact ih kv hnd2 hm2

theorem process_folder_ok (allowed : List String) (probe : Path → ProcResult)
    (pls pls' : Playlists) (job : FolderJob)
    (h : process_folder allowed probe pls job = .ok pls') :
    (∀ q, q ≠ job.category_name → getPlaylist pls' q = getPlaylist pls q) ∧
    ((getPlaylist pls' job.category_name).files
      = (getPlaylist pls job.category_name).files
        ++ (pySorted (newfiles allowed job)).map (fun x => job.path ++ [x])) ∧
    (∃ t, (getPlaylist pls' job.category_name).genres
      = (getPlaylist pls job.category_name).genres ++ t) ∧
    ((∀ q, (getPlaylist pls q).genres.Nodup) → ∀ q, (getPlaylist pls' q).genres.Nodup) ∧
    (∀ q, pls.any (fun kv => kv.1 = q) = true → pls'.any (fun kv => kv.1 = q) = true) ∧
    (pls'.any (fun kv => kv.1 = job.category_name) = true) ∧
    ((pls.map Prod.fst).Nodup → (pls'.map Prod.fst).Nodup) ∧
    (∀ x ∈ pySorted (newfiles allowed job), ∀ s,
      extract_genre (ffprobe (probe (job.path ++ [x]))) = .ok (some s) →
      ∀ g ∈ pySplitSemi s, g ∈ (getPlaylist pls' job.category_name).genres) := by
  unfold process_folder at h
  cases hpf : process_files probe job.path
      (getPlaylist (initPlaylist pls job.category_name) job.category_name)
      (pySorted (newfiles allowed job)) with
  | error e =>
    rw [hpf] at h
    exact absurd h (by simp)
  | ok pd =>
    rw [hpf] at h
    have hpls' : pls' = setPlaylist (initPlaylist pls job.category_name) job.category_name pd :=
      (Except.ok.inj h).symm
    subst hpls'
    obtain ⟨hf, ⟨t, hgt⟩, hn, hm⟩ := process_files_ok probe job.path _ _ pd hpf
    rw [getPlaylist_initPlaylist] at hf hgt hn
    refine ⟨?_, ?_, ⟨t, ?_⟩, ?_, ?_, ?_, ?_, ?_⟩
    · intro q hq
      rw [getPlaylist_setPlaylist_ne _ _ _ _ hq, getPlaylist_initPlaylist]
    · rw [getPlaylist_setPlaylist_self]
      exact hf
    · rw [getPlaylist_setPlaylist_self]
      exact hgt
    · intro hnod q
      by_cases hq : q = job.category_name
      · subst hq
        rw [getPlaylist_setPlaylist_self]
        exact hn (hnod _)
      · rw [getPlaylist_setPlaylist_ne _ _ _ _ hq, getPlaylist_initPlaylist]
        exact hnod q
    · intro q hq
      exact any_setPlaylist_of_any _ _ _ _ (any_initPlaylist_of_any _ _ _ hq)
    · exact any_setPlaylist_self _ _ _
    · intro hkeys
      exact keys_nodup_setPlaylist _ _ _ (keys_nodup_initPlaylist _ _ hkeys)
    · intro x hx s hs g hg
      rw [getPlaylist_setPlaylist_self]
      exact hm x hx s hs g hg

theorem process_folders_ok (allowed : List String) (probe : Path → ProcResult) :
    ∀ (jobs : List FolderJob) (pls pls' : Playlists),
      process_folders allowed probe pls jobs = .ok pls' →
      (∀ q, ∃ t, (getPlaylist pls' q).files = (getPlaylist pls q).files ++ t) ∧
      (∀ q, ∃ t, (getPlaylist pls' q).genres = (getPlaylist pls q).genres ++ t) ∧
      ((∀ q, (getPlaylist pls q).genres.Nodup) → ∀ q, (getPlaylist pls' q).genres.Nodup) ∧
      (∀ q, pls.any (fun kv => kv.1 = q) = true → pls'.any (fun kv => kv.1 = q) = true) ∧
      ((pls.map Prod.fst).Nodup → (pls'.map Prod.fst).Nodup) ∧
      (∀ job ∈ jobs,
        pls'.any (fun kv => kv.1 = job.category_name) = true ∧
        (∀ x ∈ newfiles allowed job,
          job.path ++ [x] ∈ (getPlaylist pls' job.category_name).files) ∧
        (∀ x ∈ newfiles allowed job, ∀ s,
          extract_genre (ffprobe (probe (job.path ++ [x]))) = .ok (some s) →
          ∀ g ∈ pySplitSemi s, g ∈ (getPlaylist pls' job.category_name).genres)) := by
  intro jobs
  induction jobs with
  | nil =>
    intro pls pls' h
    have hp : pls = pls' := by simpa [process_folders] using h
    subst hp
    exact ⟨fun q => ⟨[], by simp⟩, fun q => ⟨[], by simp⟩, fun hn => hn,
      fun q hq => hq, fun hk => hk, by simp⟩
  | cons job rest ih =>
    intro pls pls' h
    unfold process_folders at h
    cases h1 : process_folder allowed probe pls job with
    | error e =>
      rw [h1] at h
      exact absurd h (by simp)
    | ok pls1 =>
      rw [h1] at h
      obtain ⟨pf_ne, pf_files, ⟨t0, pf_genres⟩, pf_nodup, pf_any, pf_anycat, pf_keys, pf_mem⟩ :=
        process_folder_ok allowed probe pls pls1 job h1
      obtain ⟨ih_files, ih_genres, ih_nodup, ih_any, ih_keys, ih_jobs⟩ := ih pls1 pls' h
      have step_files : ∀ q, ∃ t, (getPlaylist pls1 q).files = (getPlaylist pls q).files ++ t := by
        intro q
        by_cases hq : q = job.category_name
        · subst hq
          exact ⟨_, pf_files⟩
        · exact ⟨[], by rw [pf_ne q hq, List.append_nil]⟩
      have step_genres : ∀ q, ∃ t, (getPlaylist pls1 q).genres = (getPlaylist pls q).genres ++ t := by
        intro q
        by_cases hq : q = job.category_name
        · subst hq
          exact ⟨t0, pf_genres⟩
        · exact ⟨[], by rw [pf_ne q hq, List.append_nil]⟩
      refine ⟨?_, ?_, ?_, ?_, ?_, ?_⟩
      · intro q
        obtain ⟨t1, h1'⟩ := step_files q
        obtain ⟨t2, h2'⟩ := ih_files q
        exact ⟨t1 ++ t2, by rw [h2', h1', List.append_assoc]⟩
      · intro q
        obtain ⟨t1, h1'⟩ := step_genres q
        obtain ⟨t2, h2'⟩ := ih_genres q
        exact ⟨t1 ++ t2, by rw [h2', h1', List.append_assoc]⟩
      · intro hn
        exact ih_nodup (pf_nodup hn)
      · intro q hq
        exact ih_any q (pf_any q hq)
      · intro hk
        exact ih_keys (pf_keys hk)
      · intro j hj
        rcases List.mem_cons.mp hj with rfl | hj2
        · refine ⟨ih_any _ pf_anycat, ?_, ?_⟩
          · intro x hx
            have hxs : x ∈ pySorted (newfiles allowed j) := mem_pySorted.mpr hx
            have hmem1 : j.path ++ [x] ∈ (getPlaylist pls1 j.category_name).files := by
              rw [pf_files]
              exact List.mem_append_right _ (List.mem_map.mpr ⟨x, hxs, rfl⟩)
            obtain ⟨t2, h2'⟩ := ih_files j.category_name
            rw [h2']
            exact List.mem_append_left _ hmem1
          · intro x hx s hs g hg
            have hxs : x ∈ pySorted (newfiles allowed j) := mem_pySorted.mpr hx
            have hmem1 : g ∈ (getPlaylist pls1 j.category_name).genres :=
              pf_mem x hxs s hs g hg
            obtain ⟨t2, h2'⟩ := ih_genres j.category_name
            rw [h2']
            exact List.mem_append_left _ hmem1
        · exact ih_jobs j hj2

/-- C9: `write_playlists` lists a mapped folder's entries with only an
extension test and no `is_file` check: whenever the run completes, every
directory entry of the folder — including a subdirectory or a symlinked
directory — whose name's extension, lowercased, is in the allow-list, ends
up in the category's file list and is emitted as a `PlaylistItem` `Path` of
that category's output document. -/
theorem C9_all_matching_entries_emitted (allowed : List String) (probe : Path → ProcResult)
    (now : String) (jobs : List FolderJob) (docs : List PlaylistXml)
    (h : write_playlists allowed probe now jobs = .ok docs) :
    ∀ job ∈ jobs, ∀ e ∈ job.entries, extMatch allowed e.entryName = true →
      ∃ doc ∈ docs, doc.localTitle = job.category_name
        ∧ (job.path ++ [e.entryName]) ∈ doc.playlistItems := by
  unfold write_playlists at h
  cases hp : process_folders allowed probe [] jobs with
  | error e =>
    rw [hp] at h
    exact absurd h (by simp)
  | ok pls =>
    rw [hp] at h
    have hdocs : docs = pls.map (fun kv => playlist_xml now kv.1 kv.2) := (Except.ok.inj h).symm
    subst hdocs
    intro job hjob e he hm
    obtain ⟨_, _, _, _, _, hjobs⟩ := process_folders_ok allowed probe jobs [] pls hp
    obtain ⟨hany, hfmem, _⟩ := hjobs job hjob
    cases hfind : pls.find? (fun kv => kv.1 = job.category_name) with
    | none =>
      exfalso
      rw [List.find?_eq_none] at hfind
      rcases List.any_eq_true.mp hany with ⟨kv, hkv, hk⟩
      exact hfind kv hkv hk
    | some kv =>
      have hkvmem : kv ∈ pls := List.mem_of_find?_eq_some hfind
      have hkv1 : kv.1 = job.category_name := by
        have := List.find?_some hfind
        simpa using this
      have hget : getPlaylist pls job.category_name = kv.2 := by
        unfold getPlaylist
        rw [hfind]
      refine ⟨playlist_xml now kv.1 kv.2, List.mem_map_of_mem _ hkvmem, hkv1, ?_⟩
      have hx : e.entryName ∈ newfiles allowed job :=
        List.mem_map_of_mem _ (List.mem_filter.mpr ⟨he, hm⟩)
      have hmem := hfmem e.entryName hx
      rw [hget] at hmem
      exact hmem

/-- Probe output used in the builder witnesses: well-formed `format.tags`
with no genre tag. -/
def cProbeNoTags : Json := Json.obj [("format", Json.obj [("tags", Json.obj [])])]

/-- Probe output whose genre tag is "Rock; Pop" (note the space). -/
def cProbeTag : Json :=
  Json.obj [("format", Json.obj [("tags", Json.obj [("GENRE", Json.str "Rock; Pop")])])]

/-- Witness for C9 at a concrete input: a folder containing a
SUBDIRECTORY named `sub.mp3` and a file `a.mp3`; the completed run emits
the subdirectory's path as a `PlaylistItem` of the "Rock" document. -/
theorem C9_witness :
    ∃ doc ∈ [(⟨"t", "false", "Rock", [], "f9dc2435d1eb43fcb7be02c060e59a52",
        [["m", "a.mp3"], ["m", "sub.mp3"]], "Audio"⟩ : PlaylistXml)],
      doc.localTitle = "Rock" ∧ (["m", "sub.mp3"] : Path) ∈ doc.playlistItems :=
  C9_all_matching_entries_emitted allowed_extensions (fun _ => ⟨0, some cProbeNoTags⟩) "t"
    [⟨["m"], "Rock", [.dir "sub.mp3" [], .file "a.mp3"]⟩] _ rfl
    ⟨["m"], "Rock", [.dir "sub.mp3" [], .file "a.mp3"]⟩ (List.mem_cons_self _ _)
    (.dir "sub.mp3" []) (List.mem_cons_self _ _) (by decide)

/-- Counterexample to C3 as stated: a file whose genre tag is
"Rock; Pop".  The code splits on ";" WITHOUT trimming, so the second genre
is " Pop" with a leading space and the emitted sorted list is
[" Pop", "Rock"], not the ["Pop", "Rock"] that per-part trimming would
give. -/
theorem C3_counterexample :
    (write_playlists allowed_extensions (fun _ => ⟨0, some cProbeTag⟩) "t"
        [⟨["music", "A"], "Favorites", [.file "b.mp3"]⟩]
      = .ok [⟨"t", "false", "Favorites", [" Pop", "Rock"],
          "f9dc2435d1eb43fcb7be02c060e59a52", [["music", "A", "b.mp3"]], "Audio"⟩]) ∧
    ((" Pop" : String) ∈ [" Pop", "Rock"] ∧ ("Pop" : String) ∉ ([" Pop", "Rock"] : List String)) :=
  ⟨rfl, by decide, by decide⟩

/-- C3 amended: a genre tag value is split at each semicolon into separate
tags WITHOUT trimming; per category the raw parts are accumulated
deduplicated (first-seen order), and the emitted `Genres` list is their
lexicographically sorted, duplicate-free arrangement, containing every raw
part of every successfully extracted tag of the category's files. -/
theorem C3_genres_split_dedup_sorted (allowed : List String) (probe : Path → ProcResult)
    (now : String) (jobs : List FolderJob) (docs : List PlaylistXml)
    (h : write_playlists allowed probe now jobs = .ok docs) :
    ∀ doc ∈ docs,
      doc.genres.Pairwise pyLeRel ∧
      doc.genres.Nodup ∧
      (∀ job ∈ jobs, job.category_name = doc.localTitle →
        ∀ x ∈ newfiles allowed job, ∀ s,
          extract_genre (ffprobe (probe (job.path ++ [x]))) = .ok (some s) →
          ∀ g ∈ pySplitSemi s, g ∈ doc.genres) := by
  unfold write_playlists at h
  cases hp : process_folders allowed probe [] jobs with
  | error e =>
    rw [hp] at h
    exact absurd h (by simp)
  | ok pls =>
    rw [hp] at h
    have hdocs : docs = pls.map (fun kv => playlist_xml now kv.1 kv.2) := (Except.ok.inj h).symm
    subst hdocs
    obtain ⟨_, hgext, hnodup, _, hkeys, hjobs⟩ := process_folders_ok allowed probe jobs [] pls hp
    intro doc hdoc
    rcases List.mem_map.mp hdoc with ⟨kv, hkv, hdoceq⟩
    subst hdoceq
    have hkeysN : (pls.map Prod.fst).Nodup := hkeys (by simp)
    have hget : getPlaylist pls kv.1 = kv.2 := getPlaylist_of_mem_of_keysNodup pls kv hkeysN hkv
    have hnd : kv.2.genres.Nodup := by
      have := hnodup (fun q => by simp [getPlaylist, List.find?]) kv.1
      rw [hget] at this
      exact this
    refine ⟨pySorted_sorted _, pySorted_nodup hnd, ?_⟩
    intro job hjob hcat x hx s hs g hg
    have hcat2 : job.category_name = kv.1 := hcat
    have hmem := (hjobs job hjob).2.2 x hx s hs g hg
    rw [hcat2, hget] at hmem
    exact mem_pySorted.mpr hmem

/-- Witness for the amended C3 at a concrete input: the untrimmed part
" Pop" of the tag "Rock; Pop" is a member of the emitted genre list. -/
theorem C3_witness :
    (" Pop" : String) ∈ (PlaylistXml.mk "t" "false" "Favorites" [" Pop", "Rock"]
      "f9dc2435d1eb43fcb7be02c060e59a52" [["music", "A", "b.mp3"]] "Audio").genres := by
  have happ := C3_genres_split_dedup_sorted allowed_extensions (fun _ => ⟨0, some cProbeTag⟩) "t"
    [⟨["music", "A"], "Favorites", [.file "b.mp3"]⟩]
    [⟨"t", "false", "Favorites", [" Pop", "Rock"], "f9dc2435d1eb43fcb7be02c060e59a52",
      [["music", "A", "b.mp3"]], "Audio"⟩] rfl
  exact (happ _ (List.mem_cons_self _ _)).2.2
    ⟨["music", "A"], "Favorites", [.file "b.mp3"]⟩ (List.mem_cons_self _ _) rfl
    "b.mp3" (by decide) "Rock; Pop" rfl " Pop" (by decide)

end JPE
